import Mathlib

/-!
Verification development for the `memlayout` repository.

This file contains a shallow embedding, in Lean 4, of the interval/allocation
engine of the repository: the generic interval library
(`src/memlayout/interval_lib/interval.py`, `interval_lib.py`), pages and page
tables (`page.py`, `page_table.py`), the page-table manager
(`page_table_manager.py`) and the segment-name handling of the segment manager
(`segment_management/segment.py`, `segment_manager.py`).

Conventions of the embedding:
* Python integers are modelled as `Int`; sizes keep the `size <= 0` guards of
  the source.
* Python dictionaries with scalar values are modelled as association lists
  (`Metadata`); Python's `dict` equality (order independent) is modelled by
  `dictEqB`, which compares key-sorted, key-deduplicated forms.
* Every call of `random.randrange` / `random.randint` / `random.choice` is
  modelled by an explicit `Nat` parameter `r`; `randrange(0, n)` becomes
  `r % n` and `randint(a, b)` becomes `a + r % (b - a + 1)`, so each concrete
  value of the parameter corresponds to one possible draw and every draw is
  some value of the parameter.
* Python exceptions are modelled with `Except PyErr`; each `raise` site of the
  source gets its own constructor.  Mutating operations return their post
  state even when they raise, because Python keeps the side effects performed
  before an exception.
* Calls of the logger (`logger.info` and friends on an object obtained from
  `get_logger()`) are pure output and are not modelled, except where the
  source's logging itself is broken at the language level (see
  `PageTableManager.allocateSegment`).
-/

set_option maxHeartbeats 1000000

namespace Memlayout

/-- Page types, from `memlayout.utils.enums.Page_types`. -/
inductive PageType
  | TYPE_CODE
  | TYPE_DATA
  | TYPE_DEVICE
  | TYPE_SYSTEM
deriving DecidableEq, Repr

/-- Execution contexts, from `memlayout.utils.enums.Execution_context`. -/
inductive ExecutionContext
  | EL3
  | EL2_NS
  | EL2_S
  | EL1_NS
  | EL1_S
  | EL1_Realm
  | EL0_NS
  | EL0_S
  | EL0_Realm
deriving DecidableEq, Repr

/-- Page sizes, from `memlayout.utils.enums.Page_sizes`. -/
inductive PageSize
  | SIZE_4K
  | SIZE_2M
  | SIZE_1G
deriving DecidableEq, Repr

/-- `Page_sizes.value` in bytes. -/
def PageSize.bytes : PageSize → Int
  | .SIZE_4K => 4 * 1024
  | .SIZE_2M => 2 * 1024 * 1024
  | .SIZE_1G => 1024 * 1024 * 1024

/-- Insert `x` into an already sorted list, before the first element not
strictly smaller; the building block of a stable sort. -/
def stableInsert {α : Type} (le : α → α → Bool) (x : α) : List α → List α
  | [] => [x]
  | y :: ys => if le x y then x :: y :: ys else y :: stableInsert le x ys

/-- A stable sort.  Python's `list.sort` is a stable sort, and any two stable
sorts of the same list under the same key agree element for element, so this
models `list.sort(key=...)` exactly. -/
def stableSort {α : Type} (le : α → α → Bool) : List α → List α
  | [] => []
  | x :: xs => stableInsert le x (stableSort le xs)

/-- Scalar values stored in metadata dictionaries of the source. -/
inductive MVal
  | str (v : String)
  | int (v : Int)
  | pty (v : PageType)
deriving DecidableEq, Repr

/-- A Python `dict[str, scalar]`, as an insertion-ordered association list. -/
abbrev Metadata := List (String × MVal)

/-- Dictionary lookup (`d[k]` / `k in d`): first matching key. -/
def mlookup : Metadata → String → Option MVal
  | [], _ => none
  | (k', v') :: rest, k => if k' = k then some v' else mlookup rest k

/-- Dictionary item assignment `d[k] = v`: replace in place, else append,
which is Python's insertion-order semantics. -/
def mset : Metadata → String → MVal → Metadata
  | [], k, v => [(k, v)]
  | (k', v') :: rest, k, v =>
    if k' = k then (k, v) :: rest else (k', v') :: mset rest k v

/-- `d.update(u)`: assign every item of `u` into `d`, in order. -/
def mupdate (m updates : Metadata) : Metadata :=
  updates.foldl (fun acc kv => mset acc kv.1 kv.2) m

/-- Key-deduplicated (last occurrence wins, as in a dict) and key-sorted form
of a metadata list; two lists represent the same Python dict iff their
canonical forms are equal. -/
def mcanon (m : Metadata) : Metadata :=
  stableSort (fun a b : String × MVal => decide (a.1 ≤ b.1)) (mupdate [] m)

/-- Python `==` on metadata dictionaries (order independent). -/
def dictEqB (m1 m2 : Metadata) : Bool := mcanon m1 == mcanon m2

/-- An interval, from `interval.py`: `[start, start+size)` plus metadata. -/
structure Interval where
  start : Int
  size : Int
  metadata : Metadata
deriving DecidableEq, Repr

instance : Inhabited Interval := ⟨⟨0, 0, []⟩⟩

namespace Interval

/-- `Interval.end` (exclusive end address). -/
def iend (i : Interval) : Int := i.start + i.size

/-- `Interval.contains(start, size)`. -/
def containsB (i : Interval) (s sz : Int) : Bool :=
  decide (i.start ≤ s) && decide (s + sz ≤ i.iend)

/-- `Interval.overlaps(start, size)`. -/
def overlapsB (i : Interval) (s sz : Int) : Bool :=
  !(decide (i.iend ≤ s) || decide (i.start ≥ s + sz))

/-- `Interval.is_adjacent(other)`. -/
def isAdjacent (i o : Interval) : Bool :=
  decide (i.iend = o.start) || decide (o.iend = i.start)

/-- `Interval.can_merge_with(other)`: adjacent and dict-equal metadata. -/
def canMergeWith (i o : Interval) : Bool :=
  i.isAdjacent o && dictEqB i.metadata o.metadata

/-- `Interval.merge_with(other)`; the source raises when `can_merge_with`
fails, but every call site guards with `can_merge_with` first, so the raise
branch is unreachable and is not modelled. -/
def mergeWith (i o : Interval) : Interval :=
  let newStart := min i.start o.start
  let newEnd := max i.iend o.iend
  ⟨newStart, newEnd - newStart, i.metadata⟩

/-- `Interval.split_at(split_start, split_size)`; the source raises when
`contains` fails, but every call site guards with `contains` first. -/
def splitAt (i : Interval) (s sz : Int) :
    Option Interval × Interval × Option Interval :=
  let se := s + sz
  let before := if s > i.start then some ⟨i.start, s - i.start, i.metadata⟩ else none
  let mid : Interval := ⟨s, sz, i.metadata⟩
  let after := if se < i.iend then some ⟨se, i.iend - se, i.metadata⟩ else none
  (before, mid, after)

/-- `Interval.matches_criteria(criteria)`; an empty criteria dict matches
everything, exactly as the source's early `return True`. -/
def matchesCriteria (i : Interval) (c : Metadata) : Bool :=
  c.all (fun kv => mlookup i.metadata kv.1 == some kv.2)

end Interval

/-- `m & ~(a-1)` of the source for `a` a positive power of two: round `x`
down to a multiple of `a` (Python's bitwise AND on arbitrary ints acts on the
two's-complement representation, which for masks of this shape is exactly
flooring to a multiple of `a`). -/
def alignDown (x a : Int) : Int := x - x % a

/-- `(x + a - 1) & ~(a-1)`: round up to a multiple of `a`. -/
def alignUp (x a : Int) : Int := alignDown (x + a - 1) a

/-- The interval store of `interval_lib.py`. -/
structure IntervalLib where
  intervals : List Interval
  defaultMetadata : Metadata
deriving DecidableEq, Repr

/-- Inner loop of `add_region`: try to merge `i` into the first mergeable
element of the accumulator list (`merged_intervals` of the source); `none`
when no element can merge. -/
def tryMergeList : List Interval → Interval → Option (List Interval)
  | [], _ => none
  | m :: ms, i =>
    if m.canMergeWith i then some (m.mergeWith i :: ms)
    else
      match tryMergeList ms i with
      | some ms' => some (m :: ms')
      | none => none

/-- The merging sweep of `_merge_adjacent_intervals`: walk the sorted list
carrying the current interval and merge it with its successor while they can
merge, mirroring the source's in-place `while` loop. -/
def mergeLoop (cur : Interval) : List Interval → List Interval
  | [] => [cur]
  | b :: rest =>
    if cur.canMergeWith b then mergeLoop (cur.mergeWith b) rest
    else cur :: mergeLoop b rest

/-- `self.intervals.sort(key=lambda interval: interval.start)`: a stable sort
by start address. -/
def sortIntervals (l : List Interval) : List Interval :=
  stableSort (fun a b => decide (a.start ≤ b.start)) l

/-- One iteration of `add_region`'s outer loop over the existing intervals:
either absorb the interval into the merge accumulator, or keep it in
`remaining_intervals`. -/
def addFoldStep (acc : List Interval × List Interval) (interval : Interval) :
    List Interval × List Interval :=
  match tryMergeList acc.2 interval with
  | some ms => (acc.1, ms)
  | none => (acc.1 ++ [interval], acc.2)

namespace IntervalLib

/-- `IntervalLib._merge_adjacent_intervals`. -/
def mergeAdjacentIntervals (lib : IntervalLib) : IntervalLib :=
  if lib.intervals.length < 2 then lib
  else
    match sortIntervals lib.intervals with
    | [] => { lib with intervals := [] }
    | x :: xs => { lib with intervals := mergeLoop x xs }

/-- `IntervalLib.add_region`.  The source also returns a `bool` (`False` iff
`size <= 0`), which no caller uses; the model returns the new store. -/
def addRegion (lib : IntervalLib) (start size : Int) (metadata : Option Metadata) :
    IntervalLib :=
  if size ≤ 0 then lib
  else
    let finalMetadata := mupdate lib.defaultMetadata (metadata.getD [])
    let newInterval : Interval := ⟨start, size, finalMetadata⟩
    let acc := lib.intervals.foldl addFoldStep ([], [newInterval])
    mergeAdjacentIntervals { lib with intervals := acc.1 ++ acc.2 }

/-- Per-interval case analysis of `remove_region`'s loop body: the fragments
of `interval` that survive removing `[start, start+size)`. -/
def removePiece (start size : Int) (interval : Interval) : List Interval :=
  if !(interval.overlapsB start size) then [interval]
  else if interval.containsB start size then
    match interval.splitAt start size with
    | (before, _, after) => before.toList ++ after.toList
  else if decide (start ≤ interval.start) && decide (start + size ≥ interval.iend) then []
  else if decide (start ≤ interval.start) then
    let remainingStart := start + size
    let remainingSize := interval.iend - remainingStart
    if remainingSize > 0 then [⟨remainingStart, remainingSize, interval.metadata⟩] else []
  else
    let remainingSize := start - interval.start
    if remainingSize > 0 then [⟨interval.start, remainingSize, interval.metadata⟩] else []

/-- `IntervalLib.remove_region`.  The source also returns whether anything
changed, which no caller of the claims' paths uses. -/
def removeRegion (lib : IntervalLib) (start size : Int) : IntervalLib :=
  if size ≤ 0 then lib
  else { lib with intervals := (lib.intervals.map (removePiece start size)).flatten }

/-- `IntervalLib._find_suitable_intervals`: all stored intervals matching the
criteria and the filter in which `size` bytes fit at some aligned offset,
each with its first and last feasible start. -/
def findSuitableIntervals (lib : IntervalLib) (size alignment : Int)
    (criteria : Metadata) (customFilter : Interval → Bool) :
    List (Interval × Int × Int) :=
  if size ≤ 0 then []
  else
    lib.intervals.filterMap (fun interval =>
      if !criteria.isEmpty && !(interval.matchesCriteria criteria) then none
      else if !(customFilter interval) then none
      else if decide (interval.size ≥ size) then
        if alignment > 1 then
          let firstAligned := alignUp interval.start alignment
          let maxStart := interval.start + interval.size - size
          let lastAligned := alignDown maxStart alignment
          if decide (firstAligned ≤ lastAligned) then
            some (interval, firstAligned, lastAligned)
          else none
        else
          some (interval, interval.start, interval.start + interval.size - size)
      else none)

/-- The alignment value of `find_region`:
`1 << alignment_bits if alignment_bits and alignment_bits > 0 else 1`
(an absent, zero or negative `alignment_bits` yields 1). -/
def alignmentOf (alignmentBits : Option Int) : Int :=
  match alignmentBits with
  | some b => if b > 0 then 2 ^ b.toNat else 1
  | none => 1

/-- The randomized choice of a candidate among the suitable intervals:
`random.randrange(0, len(suitable))` when more than one, else index 0. -/
def chosenOf (suitable : List (Interval × Int × Int)) (r1 : Nat) :
    Interval × Int × Int :=
  suitable.getD (if suitable.length > 1 then r1 % suitable.length else 0) default

/-- Body of `IntervalLib.find_region` after the alignment value is computed.
`r1` models the `random.randrange` draw over candidate intervals, `r2` the
draw of the position inside the chosen one (`random.randint`). -/
def findRegionWith (lib : IntervalLib) (size alignment : Int) (criteria : Metadata)
    (customFilter : Interval → Bool) (r1 r2 : Nat) : Option (Int × Int) :=
  if (lib.findSuitableIntervals size alignment criteria customFilter).isEmpty then none
  else
    if alignment > 1 &&
        !(decide ((chosenOf (lib.findSuitableIntervals size alignment criteria customFilter) r1).2.1 =
          (chosenOf (lib.findSuitableIntervals size alignment criteria customFilter) r1).2.2)) then
      some ((chosenOf (lib.findSuitableIntervals size alignment criteria customFilter) r1).2.1 +
        (r2 : Int) %
          (((chosenOf (lib.findSuitableIntervals size alignment criteria customFilter) r1).2.2 -
            (chosenOf (lib.findSuitableIntervals size alignment criteria customFilter) r1).2.1) /
              alignment + 1) * alignment, size)
    else if alignment ≤ 1 then
      some ((chosenOf (lib.findSuitableIntervals size alignment criteria customFilter) r1).1.start +
        (r2 : Int) %
          ((chosenOf (lib.findSuitableIntervals size alignment criteria customFilter) r1).1.start +
            (chosenOf (lib.findSuitableIntervals size alignment criteria customFilter) r1).1.size -
              size -
            (chosenOf (lib.findSuitableIntervals size alignment criteria customFilter) r1).1.start +
              1), size)
    else
      some ((chosenOf (lib.findSuitableIntervals size alignment criteria customFilter) r1).2.1, size)

/-- `IntervalLib.find_region`: size guard, alignment computation, then the
randomized search. -/
def findRegion (lib : IntervalLib) (size : Int) (alignmentBits : Option Int)
    (criteria : Metadata) (customFilter : Interval → Bool) (r1 r2 : Nat) :
    Option (Int × Int) :=
  if size ≤ 0 then none
  else lib.findRegionWith size (alignmentOf alignmentBits) criteria customFilter r1 r2

/-- `IntervalLib.get_intervals`. -/
def getIntervals (lib : IntervalLib) (criteria : Metadata)
    (customFilter : Interval → Bool) : List Interval :=
  lib.intervals.filter (fun interval =>
    (criteria.isEmpty || interval.matchesCriteria criteria) && customFilter interval)

/-- `IntervalLib.get_total_size`. -/
def getTotalSize (lib : IntervalLib) (criteria : Metadata) : Int :=
  (lib.intervals.filter (fun i => criteria.isEmpty || i.matchesCriteria criteria)).foldl
    (fun acc i => acc + i.size) 0

end IntervalLib

/-- Error values; one constructor per `raise` site (or missing-name failure)
of the source that the claims touch. -/
inductive PyErr
  | attributeError
  | nameError
  | couldNotFindRegion
  | noVaEqPaRegion
  | noAlignedVaEqPaRegion
  | couldNotAllocatePage
  | pageTableExists
  | noPageTable
  | invalidPageSize
  | invalidAlignment
  | pageTypeRequired
  | noAvailableVaRegion
  | vaMisaligned
  | paMisaligned
  | cannotIdentifyContainingPage
  | pageTableInconsistent
  | couldNotAllocateCrossCore
deriving DecidableEq, Repr

namespace IntervalLib

/-- `IntervalLib.find_and_remove`: find, then remove exactly `size` bytes at
the found start (the source passes its `metadata_filter` argument in the
`criteria` position of `find_region`; all in-repo callers pass none, modelled
by the empty criteria). -/
def findAndRemove (lib : IntervalLib) (size : Int) (alignmentBits : Option Int)
    (r1 r2 : Nat) : Except PyErr ((Int × Int) × IntervalLib) :=
  match lib.findRegion size alignmentBits [] (fun _ => true) r1 r2 with
  | none => .error .couldNotFindRegion
  | some (startAddress, _) =>
    .ok ((startAddress, size), lib.removeRegion startAddress size)

/-- `IntervalLib.__init__`: empty store, or one initial region carrying the
default metadata. -/
def init (startAddress totalSize : Option Int) (defaultMetadata : Metadata) :
    IntervalLib :=
  let lib : IntervalLib := ⟨[], defaultMetadata⟩
  match startAddress, totalSize with
  | some s, some t => lib.addRegion s t (some defaultMetadata)
  | _, _ => lib

/-- The missing method `IntervalLib.is_region_available`: `interval_lib.py`
defines no attribute of this name, so Python raises `AttributeError` on every
lookup.  Modelled as an unconditional error. -/
def isRegionAvailable (_lib : IntervalLib) (_addr _size : Int) :
    Except PyErr Bool :=
  .error .attributeError

end IntervalLib

/-- `Page.CACHE_WB`. -/
def cacheWb : String := "write-back"

/-- `Page.SHARE_NONE`. -/
def shareNone : String := "non-shareable"

/-- A page mapping, from `page.py`.  Permission flags: `PERM_READ = 1`,
`PERM_WRITE = 2`, `PERM_EXECUTE = 4`. -/
structure Page where
  va : Int
  pa : Int
  size : Int
  pageType : PageType
  permissions : Int
  cacheable : String
  shareable : String
  executionContext : ExecutionContext
  customAttributes : Metadata
  isCrossCore : Bool
deriving DecidableEq, Repr

/-- `Page.end_va`: address of the last byte of the page. -/
def Page.endVa (p : Page) : Int := p.va + p.size - 1

/-- `Page.end_pa`. -/
def Page.endPa (p : Page) : Int := p.pa + p.size - 1

/-- `va_memory_range_start_address` of `PageTable.__init__`:
`SIZE_2G + SIZE_2M` bytes, i.e. `0x80200000`. -/
def vaMemoryRangeStartAddress : Int := 2 ^ 31 + 2 ^ 21

/-- `va_memory_range_size`: `2 * SIZE_4G` bytes, i.e. `0x200000000`. -/
def vaMemoryRangeSize : Int := 2 * 2 ^ 32

/-- `pa_memory_range_start_address` of `PageTableManager.__init__` (the same
numeric value as the VA base). -/
def paMemoryRangeStartAddress : Int := 2 ^ 31 + 2 ^ 21

/-- `pa_memory_range_size`. -/
def paMemoryRangeSize : Int := 2 * 2 ^ 32

/-- One MMU context, from `page_table.py`.  The per-type index dictionary
`page_table_entries_by_type` is derived data (each page is appended to both
the entry list and its type's bucket, and `get_pages_by_type` is the filter
of the entry list by type); it is not modelled separately. -/
structure PageTable where
  pageTableName : String
  coreId : String
  executionContext : ExecutionContext
  unmappedVaIntervals : IntervalLib
  mappedVaIntervals : IntervalLib
  allocatedVaIntervals : IntervalLib
  nonAllocatedVaIntervals : IntervalLib
  pageTableEntries : List Page
deriving DecidableEq, Repr

/-- `PageTable.__init__`. -/
def PageTable.init (name coreId : String) (ctx : ExecutionContext) : PageTable where
  pageTableName := name
  coreId := coreId
  executionContext := ctx
  unmappedVaIntervals := IntervalLib.init (some vaMemoryRangeStartAddress)
    (some vaMemoryRangeSize)
    [("state", .str "unmapped"), ("type", .str "va"), ("page_table", .str name)]
  mappedVaIntervals := IntervalLib.init none none
    [("state", .str "mapped"), ("type", .str "va"), ("page_table", .str name)]
  allocatedVaIntervals := IntervalLib.init none none
    [("state", .str "allocated"), ("type", .str "va"), ("page_table", .str name)]
  nonAllocatedVaIntervals := IntervalLib.init none none
    [("state", .str "non_allocated"), ("type", .str "va"), ("page_table", .str name)]
  pageTableEntries := []

/-- The manager, from `page_table_manager.py`.  The Python name-to-object
dictionary and the `core_page_tables` index are modelled as an
insertion-ordered list of page tables with unique names (`create_page_table`
refuses duplicates); `get_all_page_tables` is the list itself.  The
`allocations` record list feeds only `allocate_segment`, which never runs
(see `allocateSegment`), so it is not modelled. -/
structure PageTableManager where
  unmappedPaIntervals : IntervalLib
  mappedPaIntervals : IntervalLib
  nonAllocatedPaIntervals : IntervalLib
  allocatedPaIntervals : IntervalLib
  pageTables : List PageTable
deriving DecidableEq, Repr

/-- `PageTableManager.__init__`. -/
def PageTableManager.init : PageTableManager where
  unmappedPaIntervals := IntervalLib.init (some paMemoryRangeStartAddress)
    (some paMemoryRangeSize) [("state", .str "unmapped"), ("type", .str "pa")]
  mappedPaIntervals := IntervalLib.init none none
    [("state", .str "mapped"), ("type", .str "pa")]
  nonAllocatedPaIntervals := IntervalLib.init none none
    [("state", .str "non_allocated"), ("type", .str "pa")]
  allocatedPaIntervals := IntervalLib.init none none
    [("state", .str "allocated"), ("type", .str "pa")]
  pageTables := []

namespace PageTableManager

/-- Dictionary lookup `self.page_tables[name]`. -/
def findPT (mgr : PageTableManager) (name : String) : Option PageTable :=
  mgr.pageTables.find? (fun pt => pt.pageTableName == name)

/-- In-place mutation of the named page table (Python mutates the shared
object; the functional model rewrites the entry). -/
def updatePT (mgr : PageTableManager) (name : String) (f : PageTable → PageTable) :
    PageTableManager :=
  { mgr with pageTables :=
      mgr.pageTables.map (fun pt => if pt.pageTableName == name then f pt else pt) }

/-- `PageTableManager.create_page_table`: refuse duplicate names, else create,
register and return the new page table. -/
def createPageTable (mgr : PageTableManager) (name coreId : String)
    (ctx : ExecutionContext) : Except PyErr PageTable × PageTableManager :=
  if mgr.pageTables.any (fun pt => pt.pageTableName == name) then
    (.error .pageTableExists, mgr)
  else
    let pt := PageTable.init name coreId ctx
    (.ok pt, { mgr with pageTables := mgr.pageTables ++ [pt] })

/-- `PageTableManager.allocate_pa_interval`: pass-through to
`unmapped_pa_intervals.find_and_remove`. -/
def allocatePaInterval (mgr : PageTableManager) (size : Int)
    (alignmentBits : Option Int) (r1 r2 : Nat) :
    Except PyErr ((Int × Int) × PageTableManager) :=
  match mgr.unmappedPaIntervals.findAndRemove size alignmentBits r1 r2 with
  | .error e => .error e
  | .ok (res, lib') => .ok (res, { mgr with unmappedPaIntervals := lib' })

/-- `PageTableManager.map_va_to_pa`: move `[pa, pa+size)` from unmapped to
mapped and non-allocated on the PA side, and `[va, va+size)` likewise on the
named page table's VA side, with the metadata tags of the source. -/
def mapVaToPa (mgr : PageTableManager) (ptName : String) (vaAddr paAddr size : Int)
    (pageType : PageType) : PageTableManager :=
  let mgr1 := { mgr with
    unmappedPaIntervals := mgr.unmappedPaIntervals.removeRegion paAddr size
    mappedPaIntervals := mgr.mappedPaIntervals.addRegion paAddr size none
    nonAllocatedPaIntervals := mgr.nonAllocatedPaIntervals.addRegion paAddr size
      (some [("page_type", .pty pageType), ("page_table", .str ptName)]) }
  mgr1.updatePT ptName (fun pt => { pt with
    unmappedVaIntervals := pt.unmappedVaIntervals.removeRegion vaAddr size
    mappedVaIntervals := pt.mappedVaIntervals.addRegion vaAddr size none
    nonAllocatedVaIntervals := pt.nonAllocatedVaIntervals.addRegion vaAddr size
      (some [("page_type", .pty pageType)]) })

end PageTableManager

/-- The nested loops of `_find_va_eq_pa_unmapped_region` that collect the
same-address overlaps of unmapped VA and unmapped PA intervals big enough for
`sizeBytes` (entries are `(overlap_start, overlap_size)`). -/
def vaEqPaMatching (vaIntervals paIntervals : List Interval) (sizeBytes : Int) :
    List (Int × Int) :=
  vaIntervals.flatMap (fun vi =>
    paIntervals.filterMap (fun pi =>
      if decide (max vi.start pi.start ≤
          min (vi.start + vi.size - 1) (pi.start + pi.size - 1)) then
        if decide (min (vi.start + vi.size - 1) (pi.start + pi.size - 1) -
            max vi.start pi.start + 1 ≥ sizeBytes) then
          some (max vi.start pi.start,
            min (vi.start + vi.size - 1) (pi.start + pi.size - 1) -
              max vi.start pi.start + 1)
        else none
      else none))

/-- The alignment filter of `_find_va_eq_pa_unmapped_region`: each matching
region paired with its first and last aligned feasible start. -/
def vaEqPaSuitable (matching : List (Int × Int)) (sizeBytes : Int)
    (alignmentBits : Option Int) : List ((Int × Int) × Int × Int) :=
  match alignmentBits with
  | some ab =>
    matching.filterMap (fun rg =>
      if decide (alignUp rg.1 (2 ^ ab.toNat) ≤
            alignDown (rg.1 + rg.2 - sizeBytes) (2 ^ ab.toNat)) &&
          decide (alignUp rg.1 (2 ^ ab.toNat) + sizeBytes ≤ rg.1 + rg.2) then
        some (rg, alignUp rg.1 (2 ^ ab.toNat),
          alignDown (rg.1 + rg.2 - sizeBytes) (2 ^ ab.toNat))
      else none)
  | none => matching.map (fun rg => (rg, rg.1, rg.1 + rg.2 - sizeBytes))

/-- The matching same-address overlaps of this page table's unmapped VA
intervals and the manager's unmapped PA intervals. -/
def vaEqPaMatchingOf (pt : PageTable) (mgr : PageTableManager) (sizeBytes : Int) :
    List (Int × Int) :=
  vaEqPaMatching (pt.unmappedVaIntervals.getIntervals [] (fun _ => true))
    (mgr.unmappedPaIntervals.getIntervals [] (fun _ => true)) sizeBytes

/-- The randomized choice of a matching region, as in `find_region`. -/
def vaEqPaChosen (suitable : List ((Int × Int) × Int × Int)) (r1 : Nat) :
    (Int × Int) × Int × Int :=
  suitable.getD (if suitable.length > 1 then r1 % suitable.length else 0) default

/-- The randomized position inside the chosen region
(`_find_va_eq_pa_unmapped_region` lines 151-166): an aligned offset when
`alignment_bits > 0`, else `randint(region_start, max_start)`. -/
def vaEqPaPosition (chosen : (Int × Int) × Int × Int) (sizeBytes : Int)
    (alignmentBits : Option Int) (r2 : Nat) : Int :=
  match alignmentBits with
  | some ab =>
    if ab > 0 then
      if !(decide (chosen.2.1 = chosen.2.2)) then
        chosen.2.1 +
          (r2 : Int) % ((chosen.2.2 - chosen.2.1) / (2 ^ ab.toNat) + 1) * (2 ^ ab.toNat)
      else chosen.2.1
    else chosen.1.1 + (r2 : Int) % (chosen.1.1 + chosen.1.2 - sizeBytes - chosen.1.1 + 1)
  | none => chosen.1.1 + (r2 : Int) % (chosen.1.1 + chosen.1.2 - sizeBytes - chosen.1.1 + 1)

/-- `PageTable._find_va_eq_pa_unmapped_region`: find a start address available
at the same address in both this table's unmapped VA space and the manager's
unmapped PA space; returns `(va_start, pa_start, size_bytes)` with
`va_start = pa_start`. -/
def PageTable.findVaEqPaUnmappedRegion (pt : PageTable) (mgr : PageTableManager)
    (sizeBytes : Int) (alignmentBits : Option Int) (r1 r2 : Nat) :
    Except PyErr (Int × Int × Int) :=
  if (vaEqPaMatchingOf pt mgr sizeBytes).isEmpty then .error .noVaEqPaRegion
  else
    if (vaEqPaSuitable (vaEqPaMatchingOf pt mgr sizeBytes) sizeBytes alignmentBits).isEmpty then
      .error .noAlignedVaEqPaRegion
    else
      .ok
        (vaEqPaPosition
          (vaEqPaChosen
            (vaEqPaSuitable (vaEqPaMatchingOf pt mgr sizeBytes) sizeBytes alignmentBits) r1)
          sizeBytes alignmentBits r2,
        vaEqPaPosition
          (vaEqPaChosen
            (vaEqPaSuitable (vaEqPaMatchingOf pt mgr sizeBytes) sizeBytes alignmentBits) r1)
          sizeBytes alignmentBits r2,
        sizeBytes)

/-- Default `alignment_bits` per page size (`allocate_page` lines 203-209). -/
def defaultAlignmentBits (size : PageSize) : Int :=
  match size with
  | .SIZE_4K => 12
  | .SIZE_2M => 21
  | .SIZE_1G => 30

/-- `full_size_bytes` of `allocate_page`: `size_bytes * sequential_page_count`
when more than one page is requested. -/
def fullSizeOf (sizeBytes : Int) (seqCount : Nat) : Int :=
  if seqCount > 1 then sizeBytes * (seqCount : Int) else sizeBytes

namespace PageTableManager

/-- `PageTable.allocate_page`, which reads and updates the manager singleton;
modelled as a manager operation on the named page table.  `rSize` models the
`random.choice` of a default size, `r1 r2` the VA-side (or identity-region)
draws, `r3 r4` the PA-side draws.  The result is the created page list (the
source returns the single page when `sequential_page_count == 1`); the second
component is the post state, which on an error keeps every side effect
performed before the raise, as Python does. -/
def allocatePage (mgr : PageTableManager) (ptName : String)
    (sizeArg : Option PageSize) (alignmentBitsArg : Option Int)
    (pageTypeArg : Option PageType) (permissionsArg : Option Int)
    (cacheableArg shareableArg : Option String) (customArg : Option Metadata)
    (seqCount : Nat) (vaEqPa : Bool) (rSize r1 r2 r3 r4 : Nat) :
    Except PyErr (List Page) × PageTableManager :=
  match mgr.findPT ptName with
  | none => (.error .noPageTable, mgr)
  | some pt =>
    let size : PageSize :=
      match sizeArg with
      | none => if rSize % 2 = 0 then .SIZE_4K else .SIZE_2M
      | some s => s
    if sizeArg = some .SIZE_1G then (.error .invalidPageSize, mgr)
    else
      let defaultedAb : Int :=
        match alignmentBitsArg with
        | none => defaultAlignmentBits size
        | some ab => ab
      let abInvalid : Bool :=
        match alignmentBitsArg with
        | none => false
        | some ab =>
          (decide (size = .SIZE_4K) && decide (ab < 12)) ||
          (decide (size = .SIZE_2M) && decide (ab < 21)) ||
          (decide (size = .SIZE_1G) && decide (ab < 30))
      if abInvalid then (.error .invalidAlignment, mgr)
      else
        match pageTypeArg with
        | none => (.error .pageTypeRequired, mgr)
        | some pageType =>
          let permissions := permissionsArg.getD 7
          let cacheable := cacheableArg.getD cacheWb
          let shareable := shareableArg.getD shareNone
          let custom := customArg.getD []
          let sizeBytes := size.bytes
          let fullSizeBytes : Int := fullSizeOf sizeBytes seqCount
          let mkPages (ctx : ExecutionContext) (vaStart paStart : Int) : List Page :=
            (List.range seqCount).map (fun i =>
              { va := vaStart + (i : Int) * sizeBytes
                pa := paStart + (i : Int) * sizeBytes
                size := sizeBytes
                pageType := pageType
                permissions := permissions
                cacheable := cacheable
                shareable := shareable
                executionContext := ctx
                customAttributes := custom
                isCrossCore := false })
          if vaEqPa then
            match pt.findVaEqPaUnmappedRegion mgr fullSizeBytes (some defaultedAb) r1 r2 with
            | .error _ => (.error .couldNotAllocatePage, mgr)
            | .ok (vaStart, paStart, szR) =>
              let mgrA := mgr.updatePT ptName (fun p =>
                { p with unmappedVaIntervals := p.unmappedVaIntervals.removeRegion vaStart szR })
              let mgrB := { mgrA with
                unmappedPaIntervals := mgrA.unmappedPaIntervals.removeRegion paStart szR }
              let mgrC := mgrB.mapVaToPa ptName vaStart paStart szR pageType
              let pages := mkPages pt.executionContext vaStart paStart
              let mgrD := mgrC.updatePT ptName (fun p =>
                { p with pageTableEntries := p.pageTableEntries ++ pages })
              (.ok pages, mgrD)
          else
            match pt.unmappedVaIntervals.findAndRemove fullSizeBytes (some defaultedAb) r1 r2 with
            | .error _ => (.error .couldNotAllocatePage, mgr)
            | .ok ((vaStart, vaSize), unmappedVa') =>
              let mgrA := mgr.updatePT ptName (fun p =>
                { p with unmappedVaIntervals := unmappedVa' })
              match mgrA.allocatePaInterval fullSizeBytes (some defaultedAb) r3 r4 with
              | .error _ => (.error .couldNotAllocatePage, mgrA)
              | .ok ((paStart, _), mgrB) =>
                let mgrC := mgrB.mapVaToPa ptName vaStart paStart vaSize pageType
                let pages := mkPages pt.executionContext vaStart paStart
                let mgrD := mgrC.updatePT ptName (fun p =>
                  { p with pageTableEntries := p.pageTableEntries ++ pages })
                (.ok pages, mgrD)

/-- The per-page-table body of `allocate_cross_core_page`'s loop over
`get_all_page_tables()`: allocate a VA region in that table, record the
mapping to the shared `paStart`, and append the cross-core page.  On a
failure mid-loop the tables already processed keep their updates, as in
Python.  `rVa i` gives the two draws of iteration `i`. -/
def crossCoreLoop (mgr : PageTableManager) (paStart sizeBytes : Int)
    (names : List String) (idx : Nat) (rVa : Nat → Nat × Nat) :
    Except PyErr Unit × PageTableManager :=
  match names with
  | [] => (.ok (), mgr)
  | n :: rest =>
    match mgr.findPT n with
    | none => (.error .couldNotAllocateCrossCore, mgr)
    | some pt =>
      match pt.unmappedVaIntervals.findAndRemove sizeBytes (some 21) (rVa idx).1 (rVa idx).2 with
      | .error _ => (.error .couldNotAllocateCrossCore, mgr)
      | .ok ((vaStart, vaSize), unmappedVa') =>
        let mgrA := mgr.updatePT n (fun p => { p with unmappedVaIntervals := unmappedVa' })
        let mgrB := mgrA.mapVaToPa n vaStart paStart vaSize .TYPE_DATA
        let page : Page :=
          { va := vaStart, pa := paStart, size := sizeBytes, pageType := .TYPE_DATA
            permissions := 7, cacheable := cacheWb, shareable := shareNone
            executionContext := pt.executionContext, customAttributes := []
            isCrossCore := true }
        let mgrC := mgrB.updatePT n (fun p =>
          { p with pageTableEntries := p.pageTableEntries ++ [page] })
        crossCoreLoop mgrC paStart sizeBytes rest (idx + 1) rVa

/-- `PageTable.allocate_cross_core_page`: hard-coded 2 MiB / 21-bit / DATA /
`R|W|X` / write-back / non-shareable.  The initiating table is used only for
logging (its `core_id` is bound but never read), so the operation is modelled
on the manager; the loop covers every registered page table. -/
def allocateCrossCorePage (mgr : PageTableManager) (rPa1 rPa2 : Nat)
    (rVa : Nat → Nat × Nat) : Except PyErr Unit × PageTableManager :=
  let sizeBytes : Int := PageSize.SIZE_2M.bytes
  match mgr.allocatePaInterval sizeBytes (some 21) rPa1 rPa2 with
  | .error _ => (.error .couldNotAllocateCrossCore, mgr)
  | .ok ((paStart, _), mgr1) =>
    crossCoreLoop mgr1 paStart sizeBytes
      (mgr1.pageTables.map (fun pt => pt.pageTableName)) 0 rVa

end PageTableManager

/-- The sequential/coverage scan of `_find_regular_addresses` (its `for i in
range(1, len(overlapping_pages))` loop, including the `break` on a VA gap):
returns the `is_sequential` flag and the final `covered_range_end`. -/
def covLoop (prev : Page) (rest : List Page) (vaEnd covEnd : Int) : Bool × Int :=
  match rest with
  | [] => (true, covEnd)
  | curr :: rest' =>
    if decide (prev.endVa + 1 ≠ curr.va) then (false, covEnd)
    else
      covLoop curr rest' vaEnd (if decide (curr.va ≤ vaEnd) then min curr.endVa vaEnd else covEnd)

/-- `overlapping_pages.sort(key=lambda p: p.va)`: stable sort by `va`. -/
def sortPagesByVa (l : List Page) : List Page :=
  stableSort (fun a b => decide (a.va ≤ b.va)) l

/-- The `va_start % alignment != 0` style checks of
`_find_regular_addresses` (`True` when no alignment was requested). -/
def alignedCheckOk (x : Int) (alignmentBits : Option Int) : Bool :=
  match alignmentBits with
  | none => true
  | some ab => decide (x % (2 ^ ab.toNat) = 0)

/-- The pages of the table overlapping `[va_start, va_end]`, sorted by VA. -/
def overlappingPagesOf (entries : List Page) (vaStart vaEnd : Int) : List Page :=
  sortPagesByVa (entries.filter (fun p =>
    decide (p.va ≤ vaEnd) && decide (p.endVa ≥ vaStart)))

/-- The covering-page check of `_find_regular_addresses`: the sorted
overlapping pages are nonempty, start at or before `va_start`
(`covered_range_start <= va_start`), reach `va_end`
(`covered_range_end >= va_end`) and are VA-sequential (`is_sequential`).
When this check fails the source empties `overlapping_pages` and falls into
the same `CRITICAL ERROR` raise as the no-covering-pages case. -/
def coverageOk (l : List Page) (vaStart vaEnd : Int) : Bool :=
  match l with
  | [] => false
  | p0 :: rest =>
    decide (max p0.va vaStart ≤ vaStart) &&
    decide ((covLoop p0 rest vaEnd (min p0.endVa vaEnd)).2 ≥ vaEnd) &&
    (covLoop p0 rest vaEnd (min p0.endVa vaEnd)).1

namespace PageTableManager

/-- `PageTableManager._find_regular_addresses`.  Notes tying the model to the
source: the `get_intervals(criteria=...page_type...)` call at its top feeds
logging only; the actual search (line 326) is `find_region(size,
alignment_bits)` with no criteria.  Its not-found branch formats an error
message that reads `mmu.mmu_name`, an attribute `PageTable` does not define,
so that branch raises `AttributeError`.  The sequential-PA boundary loop
(lines 407-419) logs a warning and continues, so it produces no error.  The
no-covering-pages case and the failed covering-page check (which empties
`overlapping_pages` before the final `if not overlapping_pages` raise) both
end in the same `CRITICAL ERROR` raise, modelled by `coverageOk = false`
implying `pageTableInconsistent`. -/
def findRegularAddresses (_mgr : PageTableManager) (pt : PageTable) (size : Int)
    (_pageType : PageType) (alignmentBits : Option Int) (r1 r2 : Nat) :
    Except PyErr (Int × Int × List Page) :=
  match pt.nonAllocatedVaIntervals.findRegion size alignmentBits [] (fun _ => true) r1 r2 with
  | none => .error .attributeError
  | some (vaStart, _) =>
    if !(alignedCheckOk vaStart alignmentBits) then .error .vaMisaligned
    else
      if coverageOk (overlappingPagesOf pt.pageTableEntries vaStart (vaStart + size - 1))
          vaStart (vaStart + size - 1) then
        match (overlappingPagesOf pt.pageTableEntries vaStart (vaStart + size - 1)).find?
            (fun p => decide (p.va ≤ vaStart) && decide (vaStart ≤ p.endVa)) with
        | some containingPage =>
          if !(alignedCheckOk (containingPage.pa + (vaStart - containingPage.va))
              alignmentBits) then .error .paMisaligned
          else
            .ok (vaStart, containingPage.pa + (vaStart - containingPage.va),
              overlappingPagesOf pt.pageTableEntries vaStart (vaStart + size - 1))
        | none => .error .cannotIdentifyContainingPage
      else .error .pageTableInconsistent

/-- `PageTableManager.allocate_segment`.  The first statement of the source
function (line 468) reads the bare name `logger`: `page_table_manager.py`
never defines a module-level `logger` (every other method binds
`logger = get_logger()` locally, and the module imports only `get_logger`),
so Python raises `NameError` on entry, before `_find_regular_addresses` is
reached and before any state is mutated.  (Independently, the first mutating
statement at line 481 evaluates `mmu.mmu_name` inside its argument, an
attribute `PageTable` does not define, so the function would still raise
before mutating.)  The model therefore returns the error with the state
unchanged. -/
def allocateSegment (mgr : PageTableManager) (_ptName : String) (_size : Int)
    (_pageType : PageType) (_alignmentBits : Option Int) (_vaEqPa : Bool)
    (_pageSize : Int) (_r1 _r2 : Nat) : Except PyErr Unit × PageTableManager :=
  (.error .nameError, mgr)

end PageTableManager

/-- `PageTable.is_mapped`: negate `is_region_available` on the unmapped VA
store — a method `IntervalLib` does not define. -/
def PageTable.isMapped (pt : PageTable) (vaAddr size : Int) : Except PyErr Bool :=
  match pt.unmappedVaIntervals.isRegionAvailable vaAddr size with
  | .error e => .error e
  | .ok b => .ok !b

/-- A memory segment, from `segment_management/segment.py`; only the fields
the naming claims touch are modelled. -/
structure MemorySegment where
  name : String
  address : Int
  paAddress : Int
  byteSize : Int
deriving DecidableEq, Repr

/-- `MemorySegment.__init__` (segment.py lines 24-25): the stored name is the
`name` argument with a fresh `_<uid>` suffix, where `uid` is the incremented
class counter `_memory_segment_initial_seed_id`. -/
def mkMemorySegment (name : String) (uid : Nat) (address paAddress byteSize : Int) :
    MemorySegment :=
  { name := name ++ "_" ++ toString uid
    address := address
    paAddress := paAddress
    byteSize := byteSize }

/-- The duplicate-name guard of `SegmentManager.allocate_memory_segment`
(segment_manager.py lines 44-46): the call raises iff some stored segment's
`name` equals the `name` argument. -/
def duplicateNameCheck (segments : List MemorySegment) (name : String) : Bool :=
  segments.any (fun s => s.name == name)

/-- The public mutating operations of claim C1, with their randomness made
explicit. -/
inductive Op
  | createPT (name coreId : String) (ctx : ExecutionContext)
  | allocPage (ptName : String) (sizeArg : Option PageSize)
      (alignmentBitsArg : Option Int) (pageTypeArg : Option PageType)
      (permissionsArg : Option Int) (cacheableArg shareableArg : Option String)
      (customArg : Option Metadata) (seqCount : Nat) (vaEqPa : Bool)
      (rSize r1 r2 r3 r4 : Nat)
  | allocCrossCore (rPa1 rPa2 : Nat) (rVa : Nat → Nat × Nat)
  | allocSegment (ptName : String) (size : Int) (pageType : PageType)
      (alignmentBits : Option Int) (vaEqPa : Bool) (pageSize : Int) (r1 r2 : Nat)

/-- One public operation as a state step (result plus post state; the post
state of a raising operation keeps the side effects made before the raise). -/
def step (mgr : PageTableManager) : Op → Except PyErr Unit × PageTableManager
  | .createPT n c ctx =>
    match mgr.createPageTable n c ctx with
    | (.ok _, m) => (.ok (), m)
    | (.error e, m) => (.error e, m)
  | .allocPage n s ab pty perms cache share custom sc ve rs r1 r2 r3 r4 =>
    match mgr.allocatePage n s ab pty perms cache share custom sc ve rs r1 r2 r3 r4 with
    | (.ok _, m) => (.ok (), m)
    | (.error e, m) => (.error e, m)
  | .allocCrossCore a b f => mgr.allocateCrossCorePage a b f
  | .allocSegment n sz pty ab ve ps r1 r2 => mgr.allocateSegment n sz pty ab ve ps r1 r2

/-- Run a sequence of operations, keeping the post state of every step. -/
def runOps (mgr : PageTableManager) : List Op → PageTableManager
  | [] => mgr
  | op :: rest => runOps (step mgr op).2 rest

/-- Whether every operation of the sequence completes without raising. -/
def opsOk (mgr : PageTableManager) : List Op → Bool
  | [] => true
  | op :: rest =>
    match step mgr op with
    | (.ok _, m) => opsOk m rest
    | (.error _, _) => false

/-! ### Covered-address-set lemmas for the interval library -/

/-- Address `a` lies in the half-open region of interval `i`. -/
def coveredI (i : Interval) (a : Int) : Prop := i.start ≤ a ∧ a < i.iend

/-- Address `a` lies in some interval of the list. -/
def coveredL (l : List Interval) (a : Int) : Prop := ∃ i ∈ l, coveredI i a

/-- Address `a` lies in some interval of the store. -/
def covered (lib : IntervalLib) (a : Int) : Prop := coveredL lib.intervals a

instance (i : Interval) (a : Int) : Decidable (coveredI i a) := by
  unfold coveredI; infer_instance

instance (l : List Interval) (a : Int) : Decidable (coveredL l a) := by
  unfold coveredL; infer_instance

instance (lib : IntervalLib) (a : Int) : Decidable (covered lib a) := by
  unfold covered; infer_instance

theorem coveredL_nil (a : Int) : ¬ coveredL [] a := by simp [coveredL]

theorem coveredL_cons {i : Interval} {l : List Interval} {a : Int} :
    coveredL (i :: l) a ↔ coveredI i a ∨ coveredL l a := by
  simp [coveredL]

theorem coveredL_append {l1 l2 : List Interval} {a : Int} :
    coveredL (l1 ++ l2) a ↔ coveredL l1 a ∨ coveredL l2 a := by
  simp [coveredL, or_and_right, exists_or]

theorem coveredL_perm {l1 l2 : List Interval} (h : l1.Perm l2) (a : Int) :
    coveredL l1 a ↔ coveredL l2 a := by
  unfold coveredL
  constructor
  · rintro ⟨i, hi, hc⟩; exact ⟨i, h.mem_iff.mp hi, hc⟩
  · rintro ⟨i, hi, hc⟩; exact ⟨i, h.mem_iff.mpr hi, hc⟩

theorem overlapsB_eq_true {i : Interval} {s sz : Int} :
    i.overlapsB s sz = true ↔ (s < i.iend ∧ i.start < s + sz) := by
  simp [Interval.overlapsB]

theorem containsB_eq_true {i : Interval} {s sz : Int} :
    i.containsB s sz = true ↔ i.start ≤ s ∧ s + sz ≤ i.iend := by
  simp [Interval.containsB]

theorem isAdjacent_eq_true {i o : Interval} :
    i.isAdjacent o = true ↔ i.iend = o.start ∨ o.iend = i.start := by
  simp [Interval.isAdjacent]

theorem canMergeWith_adjacent {i o : Interval} (h : i.canMergeWith o = true) :
    i.isAdjacent o = true := by
  simp only [Interval.canMergeWith, Bool.and_eq_true] at h
  exact h.1

theorem coveredI_mergeWith {i o : Interval} (h : i.isAdjacent o = true) (a : Int) :
    coveredI (i.mergeWith o) a ↔ coveredI i a ∨ coveredI o a := by
  rw [isAdjacent_eq_true] at h
  simp only [coveredI, Interval.mergeWith, Interval.iend] at *
  omega

theorem tryMergeList_covered :
    ∀ (ms : List Interval) (i : Interval) (ms' : List Interval),
      tryMergeList ms i = some ms' →
      ∀ a, (coveredL ms' a ↔ coveredL ms a ∨ coveredI i a) := by
  intro ms
  induction ms with
  | nil => intro i ms' h; simp [tryMergeList] at h
  | cons m ms ih =>
    intro i ms' h a
    simp only [tryMergeList] at h
    split at h
    · next hm =>
      cases h
      rw [coveredL_cons, coveredL_cons,
        coveredI_mergeWith (canMergeWith_adjacent hm)]
      tauto
    · next hm =>
      cases hrec : tryMergeList ms i with
      | none => rw [hrec] at h; cases h
      | some ms2 =>
        rw [hrec] at h
        cases h
        rw [coveredL_cons, coveredL_cons, ih i ms2 hrec a]
        tauto

theorem addFold_covered (L : List Interval) :
    ∀ (acc : List Interval × List Interval) (a : Int),
      (coveredL (L.foldl addFoldStep acc).1 a ∨ coveredL (L.foldl addFoldStep acc).2 a) ↔
        ((coveredL acc.1 a ∨ coveredL acc.2 a) ∨ coveredL L a) := by
  induction L with
  | nil => intro acc a; simp [coveredL_nil]
  | cons i L ih =>
    intro acc a
    rw [List.foldl_cons]
    rw [ih (addFoldStep acc i) a, coveredL_cons]
    unfold addFoldStep
    cases hrec : tryMergeList acc.2 i with
    | none => simp only [coveredL_append]; rw [coveredL_cons]; simp [coveredL_nil]; tauto
    | some ms => rw [tryMergeList_covered acc.2 i ms hrec a]; tauto

theorem covered_withIntervals (lib : IntervalLib) (X : List Interval) (a : Int) :
    covered { lib with intervals := X } a ↔ coveredL X a := Iff.rfl

theorem mergeLoop_covered : ∀ (l : List Interval) (cur : Interval) (a : Int),
    coveredL (mergeLoop cur l) a ↔ coveredI cur a ∨ coveredL l a := by
  intro l
  induction l with
  | nil => intro cur a; rw [mergeLoop]; simp [coveredL_cons, coveredL_nil]
  | cons b rest ih =>
    intro cur a
    rw [mergeLoop]
    split
    · next hm =>
      rw [ih, coveredI_mergeWith (canMergeWith_adjacent hm), coveredL_cons]
      tauto
    · rw [coveredL_cons, ih, coveredL_cons]

theorem stableInsert_perm {α : Type} (le : α → α → Bool) (x : α) (l : List α) :
    (stableInsert le x l).Perm (x :: l) := by
  induction l with
  | nil => rw [stableInsert]
  | cons y ys ih =>
    rw [stableInsert]
    split
    · exact List.Perm.refl _
    · exact ((ih.cons y).trans (List.Perm.swap x y ys))

theorem stableSort_perm {α : Type} (le : α → α → Bool) (l : List α) :
    (stableSort le l).Perm l := by
  induction l with
  | nil => exact List.Perm.refl _
  | cons x xs ih => exact (stableInsert_perm le x (stableSort le xs)).trans (ih.cons x)

theorem sortIntervals_covered (l : List Interval) (a : Int) :
    coveredL (sortIntervals l) a ↔ coveredL l a :=
  coveredL_perm (stableSort_perm _ l) a

theorem mergeAdjacent_covered (lib : IntervalLib) (a : Int) :
    covered lib.mergeAdjacentIntervals a ↔ covered lib a := by
  unfold IntervalLib.mergeAdjacentIntervals covered
  split
  · exact Iff.rfl
  · split
    · next hs =>
      have := sortIntervals_covered lib.intervals a
      rw [hs] at this
      exact this
    · next x xs hs =>
      have := sortIntervals_covered lib.intervals a
      rw [hs, coveredL_cons] at this
      simp only [covered_withIntervals]
      rw [mergeLoop_covered, this]

/-- The covered-address set after `add_region` is the union of the old set
and the added region. -/
theorem addRegion_covered (lib : IntervalLib) (s sz : Int) (md : Option Metadata)
    (a : Int) :
    covered (lib.addRegion s sz md) a ↔ covered lib a ∨ (s ≤ a ∧ a < s + sz ∧ 0 < sz) := by
  rw [IntervalLib.addRegion]
  split
  · next h =>
    constructor
    · exact fun hc => Or.inl hc
    · rintro (hc | hc)
      · exact hc
      · omega
  · next h =>
    rw [mergeAdjacent_covered, covered_withIntervals, coveredL_append,
      addFold_covered lib.intervals ([], [⟨s, sz, mupdate lib.defaultMetadata (md.getD [])⟩]) a,
      coveredL_cons]
    simp only [coveredL_nil, or_false]
    unfold coveredI Interval.iend
    simp only []
    constructor
    · rintro ((h1 | h1) | h2)
      · exact h1.elim
      · right; refine ⟨h1.1, h1.2, by omega⟩
      · exact Or.inl h2
    · rintro (h1 | h1)
      · exact Or.inr h1
      · exact Or.inl (Or.inr ⟨h1.1, h1.2.1⟩)

/-- The covered set of the fragments `remove_region` keeps from one interval:
the interval's covered set minus the removed region. -/
theorem removePiece_covered (s sz : Int) (i : Interval) (hsz : 0 < sz) (a : Int) :
    coveredL (IntervalLib.removePiece s sz i) a ↔
      coveredI i a ∧ ¬(s ≤ a ∧ a < s + sz) := by
  rw [IntervalLib.removePiece, Interval.splitAt]
  simp only []
  split_ifs <;>
    simp_all only [Bool.not_eq_true', Bool.eq_false_iff, ne_eq, overlapsB_eq_true,
      containsB_eq_true, Bool.and_eq_true, decide_eq_true_eq, not_and, not_lt, not_le,
      coveredL_append, coveredL_cons, coveredL_nil, Option.toList_some, Option.toList_none,
      coveredI, Interval.iend, or_false, false_or, gt_iff_lt, ge_iff_le] <;>
    first
      | omega
      | (rw [false_iff]; omega)

/-- The covered-address set after `remove_region` is the old set minus the
removed region. -/
theorem removeRegion_covered (lib : IntervalLib) (s sz : Int) (a : Int) :
    covered (lib.removeRegion s sz) a ↔
      covered lib a ∧ ¬(s ≤ a ∧ a < s + sz ∧ 0 < sz) := by
  unfold IntervalLib.removeRegion
  split
  · next h =>
    constructor
    · exact fun hc => ⟨hc, by omega⟩
    · exact fun hc => hc.1
  · next h =>
    unfold covered
    rw [show ({ lib with intervals := (lib.intervals.map (IntervalLib.removePiece s sz)).flatten } :
      IntervalLib).intervals = (lib.intervals.map (IntervalLib.removePiece s sz)).flatten from rfl]
    unfold coveredL
    constructor
    · rintro ⟨j, hj, hc⟩
      rw [List.mem_flatten] at hj
      obtain ⟨frag, hfrag, hjf⟩ := hj
      rw [List.mem_map] at hfrag
      obtain ⟨i, hi, rfl⟩ := hfrag
      have := (removePiece_covered s sz i (by omega) a).mp ⟨j, hjf, hc⟩
      exact ⟨⟨i, hi, this.1⟩, by omega⟩
    · rintro ⟨⟨i, hi, hc⟩, hout⟩
      have := (removePiece_covered s sz i (by omega) a).mpr ⟨hc, by omega⟩
      obtain ⟨j, hjf, hcj⟩ := this
      exact ⟨j, List.mem_flatten.mpr ⟨_, List.mem_map.mpr ⟨i, hi, rfl⟩, hjf⟩, hcj⟩

/-! ### Alignment lemmas -/

theorem alignDown_dvd (x a : Int) : a ∣ alignDown x a :=
  ⟨x / a, by have := Int.ediv_add_emod x a; unfold alignDown; omega⟩

theorem alignDown_le (x a : Int) (ha : 0 < a) : alignDown x a ≤ x := by
  have := Int.emod_nonneg x (show a ≠ 0 by omega)
  unfold alignDown; omega

theorem lt_alignDown_add (x a : Int) (ha : 0 < a) : x < alignDown x a + a := by
  have := Int.emod_lt_of_pos x ha
  unfold alignDown; omega

theorem alignUp_dvd (x a : Int) : a ∣ alignUp x a := alignDown_dvd _ a

theorem le_alignUp (x a : Int) (ha : 0 < a) : x ≤ alignUp x a := by
  have := lt_alignDown_add (x + a - 1) a ha
  unfold alignUp; omega

theorem alignUp_le (x a : Int) (ha : 0 < a) : alignUp x a ≤ x + a - 1 := by
  have := alignDown_le (x + a - 1) a ha
  unfold alignUp; omega

/-! ### `find_region` specification -/

theorem matchesCriteria_nil (i : Interval) : i.matchesCriteria [] = true := rfl

theorem findSuitable_mem {lib : IntervalLib} {size alignment : Int} {c : Metadata}
    {f : Interval → Bool} {t : Interval × Int × Int}
    (h : t ∈ lib.findSuitableIntervals size alignment c f) :
    t.1 ∈ lib.intervals ∧ t.1.matchesCriteria c = true ∧ f t.1 = true ∧
      size ≤ t.1.size ∧ 0 < size ∧
      ((1 < alignment ∧ t.2.1 = alignUp t.1.start alignment ∧
          t.2.2 = alignDown (t.1.start + t.1.size - size) alignment ∧ t.2.1 ≤ t.2.2) ∨
        (¬ 1 < alignment ∧ t.2.1 = t.1.start ∧ t.2.2 = t.1.start + t.1.size - size)) := by
  rw [IntervalLib.findSuitableIntervals] at h
  split at h
  · simp at h
  · next hpos =>
    rw [List.mem_filterMap] at h
    obtain ⟨i, hi, hg⟩ := h
    split at hg
    · cases hg
    · next hc1 =>
      split at hg
      · cases hg
      · next hc2 =>
        have hmatch : i.matchesCriteria c = true := by
          rcases c with _ | ⟨kv, c'⟩
          · exact matchesCriteria_nil i
          · by_contra hm
            rw [Bool.not_eq_true] at hm
            simp [hm] at hc1
        have hf : f i = true := by
          by_contra hm
          rw [Bool.not_eq_true] at hm
          simp [hm] at hc2
        split at hg
        · next hsz =>
          rw [decide_eq_true_eq] at hsz
          split at hg
          · next hal =>
            simp only [] at hg
            split at hg
            · next hle =>
              rw [decide_eq_true_eq] at hle
              cases hg
              exact ⟨hi, hmatch, hf, hsz, by omega, Or.inl ⟨hal, rfl, rfl, hle⟩⟩
            · cases hg
          · next hal =>
            cases hg
            exact ⟨hi, hmatch, hf, hsz, by omega, Or.inr ⟨hal, rfl, rfl⟩⟩
        · cases hg

theorem getD_mem_of_ne_nil {α : Type} [Inhabited α] {l : List α} (h : ¬ l.isEmpty = true)
    (r : Nat) : l.getD (if l.length > 1 then r % l.length else 0) default ∈ l := by
  have hlen : 0 < l.length := by
    cases l
    · simp at h
    · simp
  have hidx : (if l.length > 1 then r % l.length else 0) < l.length := by
    split
    · exact Nat.mod_lt _ (by omega)
    · omega
  rw [List.getD_eq_getElem?_getD, List.getElem?_eq_getElem hidx]
  simp [List.getElem_mem]

theorem chosenOf_mem {l : List (Interval × Int × Int)} (h : ¬ l.isEmpty = true)
    (r : Nat) : IntervalLib.chosenOf l r ∈ l := getD_mem_of_ne_nil h r

/-- Specification of the randomized search body: a successful result is the
requested size, aligned, and contained in a criteria-matching stored
interval. -/
theorem findRegionWith_spec {lib : IntervalLib} {size alignment : Int}
    {c : Metadata} {f : Interval → Bool} {r1 r2 : Nat} {st sz : Int}
    (halp : 0 < alignment)
    (h : lib.findRegionWith size alignment c f r1 r2 = some (st, sz)) :
    sz = size ∧ 0 < size ∧ alignment ∣ st ∧
      ∃ i ∈ lib.intervals, i.matchesCriteria c = true ∧ i.start ≤ st ∧
        st + size ≤ i.iend := by
  rw [IntervalLib.findRegionWith] at h
  split at h
  · cases h
  · next hne =>
    obtain ⟨hmem1, hmatch, hfil, hszle, hszpos, hbr⟩ :=
      findSuitable_mem (chosenOf_mem hne r1)
    set ch := IntervalLib.chosenOf (lib.findSuitableIntervals size alignment c f) r1 with hch
    split at h
    · next hcond =>
      simp only [Bool.and_eq_true, decide_eq_true_eq, Bool.not_eq_true',
        decide_eq_false_iff_not] at hcond
      obtain ⟨hgt1, hfane⟩ := hcond
      cases h
      rcases hbr with ⟨-, hfa, hla, hfale⟩ | ⟨hngt, -, -⟩
      · have hdvd_diff : alignment ∣ (ch.2.2 - ch.2.1) := by
          rw [hfa, hla]
          exact Dvd.dvd.sub (alignDown_dvd _ _) (alignUp_dvd _ _)
        have hediv_exact : (ch.2.2 - ch.2.1) / alignment * alignment =
            ch.2.2 - ch.2.1 := Int.ediv_mul_cancel hdvd_diff
        have hcnt_pos : (0:Int) < (ch.2.2 - ch.2.1) / alignment + 1 := by
          have : (0:Int) ≤ (ch.2.2 - ch.2.1) / alignment :=
            Int.ediv_nonneg (by omega) (by omega)
          omega
        have hmod_lt : (r2 : Int) % ((ch.2.2 - ch.2.1) / alignment + 1) <
            (ch.2.2 - ch.2.1) / alignment + 1 := Int.emod_lt_of_pos _ hcnt_pos
        have hmod_nonneg : 0 ≤ (r2 : Int) % ((ch.2.2 - ch.2.1) / alignment + 1) :=
          Int.emod_nonneg _ (by omega)
        have hoff_le : (r2 : Int) % ((ch.2.2 - ch.2.1) / alignment + 1) * alignment ≤
            ((ch.2.2 - ch.2.1) / alignment) * alignment :=
          mul_le_mul_of_nonneg_right (by omega) (by omega)
        have hoff_nonneg : (0:Int) ≤ (r2 : Int) % ((ch.2.2 - ch.2.1) / alignment + 1) * alignment :=
          mul_nonneg hmod_nonneg (by omega)
        have hup := le_alignUp ch.1.start alignment halp
        have hdown := alignDown_le (ch.1.start + ch.1.size - size) alignment halp
        refine ⟨rfl, hszpos, ?_, ch.1, hmem1, hmatch, ?_, ?_⟩
        · have h1 : alignment ∣ ch.2.1 := hfa ▸ alignUp_dvd _ alignment
          exact Dvd.dvd.add h1 (dvd_mul_left alignment _)
        · omega
        · unfold Interval.iend
          omega
      · omega
    · next hcond =>
      split at h
      · next hle1 =>
        cases h
        rcases hbr with ⟨hgt, -, -, -⟩ | ⟨-, hfa, hla⟩
        · omega
        · have hmp : (0:Int) < ch.1.start + ch.1.size - size - ch.1.start + 1 := by omega
          have hmlt := Int.emod_lt_of_pos (r2 : Int) hmp
          have hmnn := Int.emod_nonneg (r2 : Int) (show ch.1.start + ch.1.size - size - ch.1.start + 1 ≠ 0 by omega)
          refine ⟨rfl, hszpos, ?_, ch.1, hmem1, hmatch, ?_, ?_⟩
          · have : alignment = 1 := by omega
            rw [this]
            exact one_dvd _
          · omega
          · unfold Interval.iend
            omega
      · next hle1 =>
        cases h
        simp only [Bool.and_eq_true, decide_eq_true_eq, Bool.not_eq_true',
          decide_eq_false_iff_not, not_and, not_not] at hcond
        rcases hbr with ⟨hgt, hfa, hla, hfale⟩ | ⟨hngt, -, -⟩
        · have hfaeq : ch.2.1 = ch.2.2 := hcond (by omega)
          have hup := le_alignUp ch.1.start alignment halp
          have hdown := alignDown_le (ch.1.start + ch.1.size - size) alignment halp
          refine ⟨rfl, hszpos, ?_, ch.1, hmem1, hmatch, ?_, ?_⟩
          · exact hfa ▸ alignUp_dvd _ _
          · omega
          · unfold Interval.iend
            omega
        · omega

/-- Core specification of `find_region` (claim C2): a successful result
`(st, sz)` has `sz` equal to the requested size, `st` a multiple of
`2 ^ alignment_bits` when alignment bits were supplied, and the whole block
`[st, st + size)` inside a single stored interval that matches the criteria. -/
theorem findRegion_spec {lib : IntervalLib} {size : Int} {ab : Option Int}
    {c : Metadata} {f : Interval → Bool} {r1 r2 : Nat} {st sz : Int}
    (h : lib.findRegion size ab c f r1 r2 = some (st, sz)) :
    sz = size ∧ 0 < size ∧
      (∀ b, ab = some b → ((2 : Int) ^ b.toNat) ∣ st) ∧
      ∃ i ∈ lib.intervals, i.matchesCriteria c = true ∧ i.start ≤ st ∧
        st + size ≤ i.iend := by
  rw [IntervalLib.findRegion] at h
  split at h
  · cases h
  · have halp : 0 < IntervalLib.alignmentOf ab := by
      rcases ab with _ | b <;> rw [IntervalLib.alignmentOf]
      · omega
      · split
        · positivity
        · omega
    obtain ⟨h1, h2, h3, h4⟩ := findRegionWith_spec halp h
    refine ⟨h1, h2, ?_, h4⟩
    intro b hb
    subst hb
    unfold IntervalLib.alignmentOf at h3
    dsimp only at h3
    split at h3
    · exact h3
    · next hble =>
      have : b.toNat = 0 := by omega
      rw [this]
      simp

/-- `find_and_remove` specification: success returns the requested size at the
address chosen by `find_region` and removes exactly that block. -/
theorem findAndRemove_spec {lib : IntervalLib} {size : Int} {ab : Option Int}
    {r1 r2 : Nat} {st sz : Int} {lib' : IntervalLib}
    (h : lib.findAndRemove size ab r1 r2 = .ok ((st, sz), lib')) :
    sz = size ∧ lib' = lib.removeRegion st size ∧
      lib.findRegion size ab [] (fun _ => true) r1 r2 = some (st, size) := by
  rw [IntervalLib.findAndRemove.eq_def] at h
  split at h
  · cases h
  · next res hfr =>
    cases h
    obtain ⟨h1, -, -⟩ := findRegion_spec hfr
    exact ⟨rfl, rfl, h1 ▸ hfr⟩

/-! ### The identity-mapping (`VA_eq_PA`) search -/

theorem getIntervals_trivial (lib : IntervalLib) :
    lib.getIntervals [] (fun _ => true) = lib.intervals := by
  simp [IntervalLib.getIntervals]

theorem vaEqPaMatching_mem {vaIs paIs : List Interval} {s : Int} {rg : Int × Int}
    (h : rg ∈ vaEqPaMatching vaIs paIs s) :
    s ≤ rg.2 ∧ (∃ vi ∈ vaIs, vi.start ≤ rg.1 ∧ rg.1 + rg.2 ≤ vi.start + vi.size) ∧
      ∃ pi ∈ paIs, pi.start ≤ rg.1 ∧ rg.1 + rg.2 ≤ pi.start + pi.size := by
  rw [vaEqPaMatching, List.mem_flatMap] at h
  obtain ⟨vi, hvi, h⟩ := h
  rw [List.mem_filterMap] at h
  obtain ⟨pi, hpi, h⟩ := h
  split at h
  · next hle =>
    rw [decide_eq_true_eq] at hle
    split at h
    · next hsz =>
      rw [decide_eq_true_eq] at hsz
      cases h
      exact ⟨by dsimp only; omega,
        ⟨vi, hvi, by dsimp only; omega, by dsimp only; omega⟩,
        pi, hpi, by dsimp only; omega, by dsimp only; omega⟩
    · cases h
  · cases h

theorem vaEqPaSuitable_mem {matching : List (Int × Int)} {s ab : Int}
    {x : (Int × Int) × Int × Int}
    (h : x ∈ vaEqPaSuitable matching s (some ab)) :
    x.1 ∈ matching ∧ x.2.1 = alignUp x.1.1 (2 ^ ab.toNat) ∧
      x.2.2 = alignDown (x.1.1 + x.1.2 - s) (2 ^ ab.toNat) ∧
      x.2.1 ≤ x.2.2 ∧ x.2.1 + s ≤ x.1.1 + x.1.2 := by
  simp only [vaEqPaSuitable] at h
  rw [List.mem_filterMap] at h
  obtain ⟨rg, hrg, h⟩ := h
  split at h
  · next hc =>
    simp only [Bool.and_eq_true, decide_eq_true_eq] at hc
    cases h
    exact ⟨hrg, rfl, rfl, hc.1, hc.2⟩
  · cases h

theorem vaEqPaChosen_mem {l : List ((Int × Int) × Int × Int)}
    (h : ¬ l.isEmpty = true) (r : Nat) : vaEqPaChosen l r ∈ l :=
  getD_mem_of_ne_nil h r

/-- Specification of `_find_va_eq_pa_unmapped_region` with a positive
alignment: success yields an identical, aligned VA/PA start of the requested
size lying inside one of the page table's unmapped VA intervals. -/
theorem findVaEqPa_spec {pt : PageTable} {mgr : PageTableManager} {s ab : Int}
    (hab : 0 < ab) {r1 r2 : Nat} {va pa szR : Int}
    (h : pt.findVaEqPaUnmappedRegion mgr s (some ab) r1 r2 = .ok (va, pa, szR)) :
    pa = va ∧ szR = s ∧ ((2 : Int) ^ ab.toNat) ∣ va ∧
      (∃ vi ∈ pt.unmappedVaIntervals.intervals,
        vi.start ≤ va ∧ va + s ≤ vi.start + vi.size) ∧
      ∃ pi ∈ mgr.unmappedPaIntervals.intervals,
        pi.start ≤ va ∧ va + s ≤ pi.start + pi.size := by
  rw [PageTable.findVaEqPaUnmappedRegion] at h
  split at h
  · cases h
  · split at h
    · cases h
    · next hne =>
      injection h with h
      rw [Prod.mk.injEq, Prod.mk.injEq] at h
      obtain ⟨hva, hpa, hsz⟩ := h
      obtain ⟨hrgmem, hfa, hla, hfale, hfasz⟩ :=
        vaEqPaSuitable_mem (vaEqPaChosen_mem hne r1)
      set ch := vaEqPaChosen
        (vaEqPaSuitable (vaEqPaMatchingOf pt mgr s) s (some ab)) r1 with hch
      obtain ⟨hsc, ⟨vi, hvi, hlo, hhi⟩, pi, hpi, hplo, hphi⟩ := vaEqPaMatching_mem
        (show ch.1 ∈ vaEqPaMatching pt.unmappedVaIntervals.intervals
            mgr.unmappedPaIntervals.intervals s by
          have := hrgmem
          rw [vaEqPaMatchingOf, getIntervals_trivial, getIntervals_trivial] at this
          exact this)
      have hAp : (0 : Int) < 2 ^ ab.toNat := by positivity
      have hup := le_alignUp ch.1.1 (2 ^ ab.toNat) hAp
      have hdown := alignDown_le (ch.1.1 + ch.1.2 - s) (2 ^ ab.toNat) hAp
      have hpava : pa = va := by rw [← hva, ← hpa]
      have hszs : szR = s := hsz.symm
      rw [vaEqPaPosition] at hva
      rw [if_pos hab] at hva
      by_cases heq : ch.2.1 = ch.2.2
      · rw [heq] at hva
        rw [if_neg (by simp)] at hva
        refine ⟨hpava, hszs, ?_, ⟨vi, hvi, by omega, by omega⟩,
          pi, hpi, by omega, by omega⟩
        rw [← hva, hla]
        exact alignDown_dvd _ _
      · rw [if_pos (by simp [heq])] at hva
        have hdvd_diff : (2 : Int) ^ ab.toNat ∣ (ch.2.2 - ch.2.1) := by
          rw [hfa, hla]
          exact Dvd.dvd.sub (alignDown_dvd _ _) (alignUp_dvd _ _)
        have hediv_exact : (ch.2.2 - ch.2.1) / (2 ^ ab.toNat) * (2 ^ ab.toNat) =
            ch.2.2 - ch.2.1 := Int.ediv_mul_cancel hdvd_diff
        have hcnt_pos : (0 : Int) < (ch.2.2 - ch.2.1) / (2 ^ ab.toNat) + 1 := by
          have : (0 : Int) ≤ (ch.2.2 - ch.2.1) / (2 ^ ab.toNat) :=
            Int.ediv_nonneg (by omega) (by omega)
          omega
        have hmod_lt : (r2 : Int) % ((ch.2.2 - ch.2.1) / (2 ^ ab.toNat) + 1) <
            (ch.2.2 - ch.2.1) / (2 ^ ab.toNat) + 1 := Int.emod_lt_of_pos _ hcnt_pos
        have hmod_nonneg : 0 ≤ (r2 : Int) % ((ch.2.2 - ch.2.1) / (2 ^ ab.toNat) + 1) :=
          Int.emod_nonneg _ (by omega)
        have hoff_le : (r2 : Int) % ((ch.2.2 - ch.2.1) / (2 ^ ab.toNat) + 1) * (2 ^ ab.toNat) ≤
            ((ch.2.2 - ch.2.1) / (2 ^ ab.toNat)) * (2 ^ ab.toNat) :=
          mul_le_mul_of_nonneg_right (by omega) (by omega)
        have hoff_nonneg : (0 : Int) ≤
            (r2 : Int) % ((ch.2.2 - ch.2.1) / (2 ^ ab.toNat) + 1) * (2 ^ ab.toNat) :=
          mul_nonneg hmod_nonneg (by omega)
        refine ⟨hpava, hszs, ?_, ⟨vi, hvi, by omega, by omega⟩,
          pi, hpi, by omega, by omega⟩
        rw [← hva]
        have h1 : (2 : Int) ^ ab.toNat ∣ ch.2.1 := hfa ▸ alignUp_dvd _ _
        exact Dvd.dvd.add h1 (dvd_mul_left _ _)

/-- If no suitable aligned identity region exists, the search raises. -/
theorem findVaEqPa_err_of_suitable_nil {pt : PageTable} {mgr : PageTableManager}
    {s : Int} {ab : Option Int} (r1 r2 : Nat)
    (h : vaEqPaSuitable (vaEqPaMatchingOf pt mgr s) s ab = []) :
    ∃ e, pt.findVaEqPaUnmappedRegion mgr s ab r1 r2 = .error e := by
  rw [PageTable.findVaEqPaUnmappedRegion]
  split
  · exact ⟨_, rfl⟩
  · have hse : (vaEqPaSuitable (vaEqPaMatchingOf pt mgr s) s ab).isEmpty = true := by
      rw [h]
      rfl
    rw [if_pos hse]
    exact ⟨_, rfl⟩

/-! ### Claim C2 -/

/-- C2: for every interval set, every size `s > 0`, every alignment bits `a`
and every criteria map `c`, if `find_region(s, a, c)` returns `(start, size)`
then `start` is a multiple of `2 ^ a` (of `1` when `a` is absent), `size = s`,
and some single stored interval whose metadata matches every entry of `c`
fully contains `[start, start + s)`. -/
theorem c2_find_region_success_spec (lib : IntervalLib) (s : Int) (a : Option Int)
    (c : Metadata) (f : Interval → Bool) (r1 r2 : Nat) (st sz : Int)
    (hs : 0 < s)
    (h : lib.findRegion s a c f r1 r2 = some (st, sz)) :
    sz = s ∧ (∀ b, a = some b → ((2 : Int) ^ b.toNat) ∣ st) ∧ (1 : Int) ∣ st ∧
      ∃ i ∈ lib.intervals, i.matchesCriteria c = true ∧ i.start ≤ st ∧
        st + s ≤ i.iend := by
  obtain ⟨h1, -, h3, h4⟩ := findRegion_spec h
  exact ⟨h1, h3, one_dvd st, h4⟩

/-- The interval store of the spec's simple-allocator scenario, used as the
concrete witness input. -/
def c2Lib : IntervalLib := IntervalLib.init (some 0x1000) (some 0x10000) []

theorem c2_find_region_success_spec_witness :
    (0 : Int) < 0x1000 ∧
    c2Lib.findRegion 0x1000 (some 12) [] (fun _ => true) 0 0 = some (0x1000, 0x1000) ∧
    ((0x1000 : Int) = 0x1000 ∧
      (∀ b, (some 12 : Option Int) = some b → ((2 : Int) ^ b.toNat) ∣ 0x1000) ∧
      (1 : Int) ∣ 0x1000 ∧
      ∃ i ∈ c2Lib.intervals, i.matchesCriteria [] = true ∧ i.start ≤ 0x1000 ∧
        0x1000 + 0x1000 ≤ i.iend) :=
  ⟨by norm_num, by decide,
    c2_find_region_success_spec c2Lib 0x1000 (some 12) [] (fun _ => true) 0 0
      0x1000 0x1000 (by norm_num) (by decide)⟩

/-! ### Claim C10 -/

/-- C10: for every page table and every `(va_addr, size)`, the public query
`is_mapped` never returns a boolean: it invokes `is_region_available` on its
unmapped-VA interval store, and `IntervalLib` defines no such method, so
every call raises `AttributeError`. -/
theorem c10_is_mapped_always_raises (pt : PageTable) (vaAddr size : Int) :
    pt.isMapped vaAddr size = .error .attributeError := rfl

/-! ### Claim C9 -/

/-- C9 (evidence of the code bug): `MemorySegment.__init__` stores
`name + "_" + uid` instead of `name`, so the duplicate-name guard of
`allocate_memory_segment`, which compares stored names against the raw
`name` argument, never fires: a second call with the name of an earlier
successful call passes the check (the source would raise only if the check
were true) and creates a second segment instead of raising `DuplicateName`. -/
theorem c9_duplicate_name_check_never_fires (name : String) (uid1 uid2 : Nat)
    (a1 p1 s1 a2 p2 s2 : Int) :
    duplicateNameCheck [mkMemorySegment name uid1 a1 p1 s1] name = false ∧
      (mkMemorySegment name uid2 a2 p2 s2).name ≠ name := by
  have hne : ∀ uid : Nat, (name ++ "_" ++ toString uid) ≠ name := by
    intro uid he
    have hlen := congrArg String.length he
    rw [String.length_append, String.length_append] at hlen
    have h1 : ("_" : String).length = 1 := rfl
    omega
  constructor
  · simp only [duplicateNameCheck, mkMemorySegment, List.any_cons, List.any_nil,
      Bool.or_false]
    exact beq_eq_false_iff_ne.mpr (hne uid1)
  · exact hne uid2

/-! ### Claim C5 -/

theorem updatePT_unmappedPa (mgr : PageTableManager) (n : String)
    (f : PageTable → PageTable) :
    (mgr.updatePT n f).unmappedPaIntervals = mgr.unmappedPaIntervals := rfl

/-- C5 (amended): in the normal (`VA_eq_PA = false`) path of `allocate_page`,
when the VA step succeeds and the PA step then fails, the call raises an
error and the page table's `unmapped_va` keeps the VA region removed — the
address chosen by the VA step was covered before the call and is no longer
covered afterwards.  No rollback happens: the post state is exactly the pre
state with the page table's `unmapped_va` replaced by the shrunk set. -/
theorem c5_pa_failure_keeps_va_removed (mgr : PageTableManager) (ptName : String)
    (pt : PageTable) (sizeArg : PageSize) (ptype : PageType)
    (perms : Option Int) (cach shar : Option String) (cust : Option Metadata)
    (seqCount rs r1 r2 r3 r4 : Nat)
    (vaStart vaSize : Int) (unmappedVa' : IntervalLib) (e : PyErr)
    (hfind : mgr.findPT ptName = some pt)
    (hnot1G : sizeArg ≠ .SIZE_1G)
    (hva : pt.unmappedVaIntervals.findAndRemove (fullSizeOf sizeArg.bytes seqCount)
      (some (defaultAlignmentBits sizeArg)) r1 r2 = .ok ((vaStart, vaSize), unmappedVa'))
    (hpa : mgr.unmappedPaIntervals.findAndRemove (fullSizeOf sizeArg.bytes seqCount)
      (some (defaultAlignmentBits sizeArg)) r3 r4 = .error e) :
    (mgr.allocatePage ptName (some sizeArg) none (some ptype) perms cach shar cust
        seqCount false rs r1 r2 r3 r4).1 = .error .couldNotAllocatePage ∧
    (mgr.allocatePage ptName (some sizeArg) none (some ptype) perms cach shar cust
        seqCount false rs r1 r2 r3 r4).2 =
      mgr.updatePT ptName (fun p => { p with unmappedVaIntervals := unmappedVa' }) ∧
    covered pt.unmappedVaIntervals vaStart ∧ ¬ covered unmappedVa' vaStart := by
  obtain ⟨hsz, hrem, hfr⟩ := findAndRemove_spec hva
  obtain ⟨-, hpos, -, i, hi, -, hst1, hst2⟩ := findRegion_spec hfr
  have hcov : covered pt.unmappedVaIntervals vaStart :=
    ⟨i, hi, hst1, by unfold Interval.iend at hst2 ⊢; omega⟩
  have hncov : ¬ covered unmappedVa' vaStart := by
    rw [hrem, removeRegion_covered]
    rintro ⟨-, hc⟩
    exact hc ⟨le_refl _, by omega, hpos⟩
  have h1G : (some sizeArg = some PageSize.SIZE_1G) = False := by
    simp [hnot1G]
  have hmain : mgr.allocatePage ptName (some sizeArg) none (some ptype) perms cach
      shar cust seqCount false rs r1 r2 r3 r4 =
      (.error .couldNotAllocatePage,
        mgr.updatePT ptName (fun p => { p with unmappedVaIntervals := unmappedVa' })) := by
    rw [PageTableManager.allocatePage.eq_def, hfind]
    simp only [h1G, Bool.false_eq_true, if_false, PageTableManager.allocatePaInterval,
      updatePT_unmappedPa, hva, hpa]
  rw [hmain]
  exact ⟨rfl, rfl, hcov, hncov⟩

/-- Manager with two registered page tables `A` and `B`. -/
def c5Mgr0 : PageTableManager :=
  ((PageTableManager.init.createPageTable "A" "core_0" .EL3).2.createPageTable
    "B" "core_1" .EL3).2

/-- `c5Mgr0` after `allocate_page("A", 2 MiB, CODE, sequential_page_count =
4096)` consumed the entire 8 GiB unmapped PA pool (and all of `A`'s VA). -/
def c5MgrDrained : PageTableManager :=
  (c5Mgr0.allocatePage "A" (some .SIZE_2M) none (some .TYPE_CODE) none none none none
    4096 false 0 0 0 0 0).2

/-- The registered page table `B` of the drained manager. -/
def c5PtB : PageTable :=
  (c5MgrDrained.findPT "B").getD (PageTable.init "B" "core_1" .EL3)

/-- The shrunk unmapped-VA store of `B` after the failing call's VA step. -/
def c5UnmappedAfter : IntervalLib :=
  c5PtB.unmappedVaIntervals.removeRegion 0x80200000 4096

/-- C5 (counterexample to the claim as stated): on a manager whose unmapped
PA pool is exhausted, `allocate_page("B", 4 KiB, CODE)` performs its VA step
(removing `[0x80200000, 0x80201000)` from `B`'s `unmapped_va`), then fails
its PA step and raises — but `B`'s `unmapped_va` after the call differs from
its state before the call: the claimed rollback does not happen. -/
theorem c5_counterexample :
    c5PtB.unmappedVaIntervals.findAndRemove 4096 (some 12) 0 0 =
      .ok ((0x80200000, 4096), c5UnmappedAfter) ∧
    c5MgrDrained.unmappedPaIntervals.findAndRemove 4096 (some 12) 0 0 =
      .error .couldNotFindRegion ∧
    (c5MgrDrained.allocatePage "B" (some .SIZE_4K) none (some .TYPE_CODE) none none
      none none 1 false 0 0 0 0 0).1 = .error .couldNotAllocatePage ∧
    ((c5MgrDrained.allocatePage "B" (some .SIZE_4K) none (some .TYPE_CODE) none none
        none none 1 false 0 0 0 0 0).2.findPT "B").map
      (fun pt => pt.unmappedVaIntervals) ≠
      (c5MgrDrained.findPT "B").map (fun pt => pt.unmappedVaIntervals) :=
  ⟨by rfl, by rfl, by rfl, by decide⟩

theorem c5_pa_failure_keeps_va_removed_witness :
    c5MgrDrained.findPT "B" = some c5PtB ∧
    ((c5MgrDrained.allocatePage "B" (some .SIZE_4K) none (some .TYPE_CODE) none none
        none none 1 false 0 0 0 0 0).1 = .error .couldNotAllocatePage ∧
      (c5MgrDrained.allocatePage "B" (some .SIZE_4K) none (some .TYPE_CODE) none none
          none none 1 false 0 0 0 0 0).2 =
        c5MgrDrained.updatePT "B"
          (fun p => { p with unmappedVaIntervals := c5UnmappedAfter }) ∧
      covered c5PtB.unmappedVaIntervals 0x80200000 ∧
      ¬ covered c5UnmappedAfter 0x80200000) :=
  ⟨by rfl,
    c5_pa_failure_keeps_va_removed c5MgrDrained "B" c5PtB .SIZE_4K .TYPE_CODE
      none none none none 1 0 0 0 0 0 0x80200000 4096 c5UnmappedAfter
      .couldNotFindRegion (by rfl) (by decide) (by rfl) (by rfl)⟩

/-! ### Claim C8 -/

/-- C8: in `allocate_page(size=2 MiB, page_type=CODE, VA_eq_PA=true)` (one
page, default alignment), provided the page table's unmapped VA intervals lie
inside the initial VA range: every success returns exactly one `Page` with
`va = pa`, size 2 MiB, `va` a multiple of `2^21`, and `[va, va + 2 MiB)`
within `[0x80200000, 0x80200000 + 0x200000000)`; and when no same-address
overlap of unmapped VA and unmapped PA admits an aligned block of that size
(the suitable list is empty), the call raises and returns the manager
unchanged — no page is created. -/
theorem c8_va_eq_pa_page_identity (mgr : PageTableManager) (ptName : String)
    (pt : PageTable) (perms : Option Int) (cach shar : Option String)
    (cust : Option Metadata) (rs r1 r2 r3 r4 : Nat)
    (hfind : mgr.findPT ptName = some pt)
    (hrange : ∀ i ∈ pt.unmappedVaIntervals.intervals,
      vaMemoryRangeStartAddress ≤ i.start ∧
        i.start + i.size ≤ vaMemoryRangeStartAddress + vaMemoryRangeSize) :
    (∀ pages, (mgr.allocatePage ptName (some .SIZE_2M) none (some .TYPE_CODE)
        perms cach shar cust 1 true rs r1 r2 r3 r4).1 = .ok pages →
      ∃ p, pages = [p] ∧ p.va = p.pa ∧ p.size = PageSize.SIZE_2M.bytes ∧
        ((2 : Int) ^ 21) ∣ p.va ∧ vaMemoryRangeStartAddress ≤ p.va ∧
        p.va + PageSize.SIZE_2M.bytes ≤
          vaMemoryRangeStartAddress + vaMemoryRangeSize) ∧
    (vaEqPaSuitable (vaEqPaMatchingOf pt mgr PageSize.SIZE_2M.bytes)
        PageSize.SIZE_2M.bytes (some 21) = [] →
      mgr.allocatePage ptName (some .SIZE_2M) none (some .TYPE_CODE)
        perms cach shar cust 1 true rs r1 r2 r3 r4 =
        (.error .couldNotAllocatePage, mgr)) := by
  have h1G : (some PageSize.SIZE_2M = some PageSize.SIZE_1G) = False := by simp
  have hTT : (true = true) = True := by simp
  constructor
  · intro pages hok
    rcases hE : pt.findVaEqPaUnmappedRegion mgr (fullSizeOf PageSize.SIZE_2M.bytes 1)
        (some (defaultAlignmentBits PageSize.SIZE_2M)) r1 r2 with e | ⟨va, pa, szR⟩
    · rw [PageTableManager.allocatePage.eq_def, hfind] at hok
      simp only [h1G, Bool.false_eq_true, if_false, hTT, if_true, hE] at hok
      cases hok
    · obtain ⟨hpava, hszs, hdvd, ⟨vi, hvi, hlo, hhi⟩, -⟩ :=
        findVaEqPa_spec (by decide) hE
      obtain ⟨hA, hB⟩ := hrange vi hvi
      have hfull : fullSizeOf PageSize.SIZE_2M.bytes 1 = PageSize.SIZE_2M.bytes := rfl
      rw [hfull] at hhi
      rw [PageTableManager.allocatePage.eq_def, hfind] at hok
      have hr1 : List.range 1 = [0] := rfl
      simp only [h1G, Bool.false_eq_true, if_false, hTT, if_true, hE,
        hr1, List.map_cons, List.map_nil, Nat.cast_zero, zero_mul,
        add_zero] at hok
      injection hok with hok
      refine ⟨_, hok.symm, ?_, ?_, ?_, ?_, ?_⟩ <;> dsimp only
      · omega
      · have hdvd2 : (2 : Int) ^ (21 : Nat) ∣ va := hdvd
        simpa using hdvd2
      · omega
      · omega
  · intro hnil
    have hnil2 : vaEqPaSuitable
        (vaEqPaMatchingOf pt mgr (fullSizeOf PageSize.SIZE_2M.bytes 1))
        (fullSizeOf PageSize.SIZE_2M.bytes 1)
        (some (defaultAlignmentBits PageSize.SIZE_2M)) = [] := hnil
    obtain ⟨e, herr⟩ := findVaEqPa_err_of_suitable_nil r1 r2 hnil2
    rw [PageTableManager.allocatePage.eq_def, hfind]
    simp only [h1G, Bool.false_eq_true, if_false, hTT, if_true, herr]

/-- Manager with a single registered page table `A`. -/
def c8Mgr : PageTableManager :=
  (PageTableManager.init.createPageTable "A" "core_0" .EL3).2

/-- The registered page table `A` of `c8Mgr`. -/
def c8Pt : PageTable :=
  (c8Mgr.findPT "A").getD (PageTable.init "A" "core_0" .EL3)

theorem c8_va_eq_pa_page_identity_witness :
    (∀ pages, (c8Mgr.allocatePage "A" (some .SIZE_2M) none (some .TYPE_CODE)
        none none none none 1 true 0 5 7 0 0).1 = .ok pages →
      ∃ p, pages = [p] ∧ p.va = p.pa ∧ p.size = PageSize.SIZE_2M.bytes ∧
        ((2 : Int) ^ 21) ∣ p.va ∧ vaMemoryRangeStartAddress ≤ p.va ∧
        p.va + PageSize.SIZE_2M.bytes ≤
          vaMemoryRangeStartAddress + vaMemoryRangeSize) ∧
    (vaEqPaSuitable (vaEqPaMatchingOf c8Pt c8Mgr PageSize.SIZE_2M.bytes)
        PageSize.SIZE_2M.bytes (some 21) = [] →
      c8Mgr.allocatePage "A" (some .SIZE_2M) none (some .TYPE_CODE)
        none none none none 1 true 0 5 7 0 0 =
        (.error .couldNotAllocatePage, c8Mgr)) :=
  c8_va_eq_pa_page_identity c8Mgr "A" c8Pt none none none none 0 5 7 0 0
    (by rfl) (by decide)

/-! ### Claims C6 and C7 -/

/-- Metadata of a `non_allocated_va` interval recording DATA pages, as
`map_va_to_pa` produces it. -/
def c6mdData : Metadata :=
  [("state", .str "non_allocated"), ("type", .str "va"),
    ("page_table", .str "X"), ("page_type", .pty .TYPE_DATA)]

/-- A mapped DATA page at `VA 0x90000000 → PA 0xA0000000`. -/
def c6Page : Page :=
  { va := 0x90000000
    pa := 0xA0000000
    size := 4096
    pageType := .TYPE_DATA
    permissions := 7
    cacheable := cacheWb
    shareable := shareNone
    executionContext := .EL3
    customAttributes := []
    isCrossCore := false }

/-- A page table whose only non-allocated VA interval records DATA pages. -/
def c6Pt : PageTable :=
  { PageTable.init "X" "core_0" .EL3 with
    nonAllocatedVaIntervals :=
      { intervals := [{ start := 0x90000000, size := 4096, metadata := c6mdData }]
        defaultMetadata := [("state", .str "non_allocated"), ("type", .str "va"),
          ("page_table", .str "X")] }
    pageTableEntries := [c6Page] }

/-- C6 (counterexample): requesting a CODE segment region from `c6Pt`
succeeds — `_find_regular_addresses` passes no criteria to `find_region` —
and the chosen region `[0x90000000, 0x90001000)` lies in no
`non_allocated_va` interval whose `page_type` metadata is CODE, refuting the
claim that the candidate is chosen with the `{page_type}` criteria. -/
theorem c6_counterexample :
    PageTableManager.init.findRegularAddresses c6Pt 4096 .TYPE_CODE none 0 0 =
      .ok (0x90000000, 0xA0000000, [c6Page]) ∧
    ¬ ∃ i ∈ c6Pt.nonAllocatedVaIntervals.intervals,
        i.matchesCriteria [("page_type", .pty .TYPE_CODE)] = true ∧
        i.start ≤ 0x90000000 ∧ 0x90000000 + 4096 ≤ i.iend :=
  ⟨by rfl, by decide⟩

/-- C6 (amended): in the normal path, the candidate `va_start` is chosen by
`find_region` over the page table's `non_allocated_va` set with no metadata
criteria; hence every successful call places `[va_start, va_start + size)`
inside some `non_allocated_va` interval, but that interval's `page_type`
metadata need not equal the requested page type. -/
theorem c6_region_in_some_non_allocated_interval (mgr : PageTableManager)
    (pt : PageTable) (size : Int) (ptype : PageType) (ab : Option Int)
    (r1 r2 : Nat) (va pa : Int) (pages : List Page)
    (h : mgr.findRegularAddresses pt size ptype ab r1 r2 = .ok (va, pa, pages)) :
    pt.nonAllocatedVaIntervals.findRegion size ab [] (fun _ => true) r1 r2 =
      some (va, size) ∧
    ∃ i ∈ pt.nonAllocatedVaIntervals.intervals, i.start ≤ va ∧
      va + size ≤ i.iend := by
  rw [PageTableManager.findRegularAddresses.eq_def] at h
  split at h
  · cases h
  · next vaStart snd hfr =>
    split at h
    · cases h
    · split at h
      · split at h
        · split at h
          · cases h
          · cases h
            obtain ⟨hsz, -, -, i, hi, -, h1, h2⟩ := findRegion_spec hfr
            subst hsz
            exact ⟨hfr, i, hi, h1, h2⟩
        · cases h
      · cases h

theorem c6_region_in_some_non_allocated_interval_witness :
    PageTableManager.init.findRegularAddresses c6Pt 4096 .TYPE_DATA none 0 0 =
      .ok (0x90000000, 0xA0000000, [c6Page]) ∧
    (c6Pt.nonAllocatedVaIntervals.findRegion 4096 none [] (fun _ => true) 0 0 =
        some (0x90000000, 4096) ∧
      ∃ i ∈ c6Pt.nonAllocatedVaIntervals.intervals, i.start ≤ 0x90000000 ∧
        0x90000000 + 4096 ≤ i.iend) :=
  ⟨by rfl,
    c6_region_in_some_non_allocated_interval PageTableManager.init c6Pt 4096
      .TYPE_DATA none 0 0 0x90000000 0xA0000000 [c6Page] (by rfl)⟩

/-- The second page of the C7 scenario: VA-adjacent to `c6Page` but with a
physical address that does not continue where `c6Page`'s ends. -/
def c7Page2 : Page := { c6Page with va := 0x90001000, pa := 0xB0000000 }

/-- A page table whose two pages cover `[0x90000000, 0x90002000)` with
sequential VAs but non-contiguous PAs. -/
def c7Pt : PageTable :=
  { c6Pt with
    nonAllocatedVaIntervals :=
      { intervals := [{ start := 0x90000000, size := 8192, metadata := c6mdData }]
        defaultMetadata := [("state", .str "non_allocated"), ("type", .str "va"),
          ("page_table", .str "X")] }
    pageTableEntries := [c6Page, c7Page2] }

/-- C7 (counterexample): the pages covering the chosen range have
non-contiguous physical addresses (`end_pa + 1` of the first is not the
`pa` of the second), yet `_find_regular_addresses` completes successfully —
the boundary loop only logs a warning — instead of failing with the fatal
`PageTableInconsistent` error. -/
theorem c7_counterexample :
    PageTableManager.init.findRegularAddresses c7Pt 8192 .TYPE_DATA none 0 0 =
      .ok (0x90000000, 0xA0000000, [c6Page, c7Page2]) ∧
    c6Page.endPa + 1 ≠ c7Page2.pa :=
  ⟨by rfl, by decide⟩

/-- C7 (amended): the fatal `PageTableInconsistent` error of
`_find_regular_addresses` arises exactly when the VA-side covering-page check
fails (no overlapping page, a VA gap, or incomplete coverage); non-contiguous
physical addresses across the covering pages never cause it — the PA
boundary loop only logs a warning and the allocation completes. -/
theorem c7_inconsistent_only_from_va_coverage (mgr : PageTableManager)
    (pt : PageTable) (size : Int) (ptype : PageType) (ab : Option Int)
    (r1 r2 : Nat)
    (h : mgr.findRegularAddresses pt size ptype ab r1 r2 =
      .error .pageTableInconsistent) :
    ∃ va sz, pt.nonAllocatedVaIntervals.findRegion size ab [] (fun _ => true) r1 r2 =
        some (va, sz) ∧
      coverageOk (overlappingPagesOf pt.pageTableEntries va (va + size - 1)) va
        (va + size - 1) = false := by
  rw [PageTableManager.findRegularAddresses.eq_def] at h
  split at h
  · cases h
  · next vaStart snd hfr =>
    split at h
    · cases h
    · split at h
      · split at h
        · split at h
          · cases h
          · cases h
        · cases h
      · next hcov =>
        exact ⟨vaStart, snd, hfr, by simpa using hcov⟩

/-- A page table with a non-allocated VA interval but no pages at all. -/
def c7PtNoPages : PageTable := { c6Pt with pageTableEntries := [] }

theorem c7_inconsistent_only_from_va_coverage_witness :
    PageTableManager.init.findRegularAddresses c7PtNoPages 4096 .TYPE_DATA none 0 0 =
      .error .pageTableInconsistent ∧
    ∃ va sz, c7PtNoPages.nonAllocatedVaIntervals.findRegion 4096 none [] (fun _ => true) 0 0 =
        some (va, sz) ∧
      coverageOk (overlappingPagesOf c7PtNoPages.pageTableEntries va (va + 4096 - 1)) va
        (va + 4096 - 1) = false :=
  ⟨by rfl,
    c7_inconsistent_only_from_va_coverage PageTableManager.init c7PtNoPages 4096
      .TYPE_DATA none 0 0 (by rfl)⟩

/-! ### Claim C4 -/

/-- How many cross-core pages at physical address `paStart` a page table
holds. -/
def crossPageCount (pt : PageTable) (paStart : Int) : Nat :=
  (pt.pageTableEntries.filter (fun p => decide (p.pa = paStart) && p.isCrossCore)).length

/-- One iteration of `allocate_cross_core_page`'s loop rewrites the table list
pointwise: only the table named `n` changes, getting its VA bookkeeping updated
and the cross-core page appended. -/
theorem crossStep_tables (mgr : PageTableManager) (n : String)
    (uva : IntervalLib) (vaStart paStart vaSize : Int) (page : Page) :
    (((mgr.updatePT n (fun p => { p with unmappedVaIntervals := uva })).mapVaToPa
        n vaStart paStart vaSize .TYPE_DATA).updatePT n
        (fun p => { p with pageTableEntries := p.pageTableEntries ++ [page] })).pageTables =
      mgr.pageTables.map (fun pt1 =>
        if pt1.pageTableName == n then
          { pt1 with
            unmappedVaIntervals := uva.removeRegion vaStart vaSize
            mappedVaIntervals := pt1.mappedVaIntervals.addRegion vaStart vaSize none
            nonAllocatedVaIntervals := pt1.nonAllocatedVaIntervals.addRegion vaStart
              vaSize (some [("page_type", .pty .TYPE_DATA)])
            pageTableEntries := pt1.pageTableEntries ++ [page] }
        else pt1) := by
  simp only [PageTableManager.updatePT, PageTableManager.mapVaToPa, List.map_map]
  refine List.map_congr_left fun pt1 _ => ?_
  by_cases hn : pt1.pageTableName == n <;> simp [Function.comp, hn]

/-- Per-iteration effect on the manager-wide `mapped_pa` store. -/
theorem crossStep_mappedPa (mgr : PageTableManager) (n : String)
    (uva : IntervalLib) (vaStart paStart vaSize : Int) (page : Page) :
    (((mgr.updatePT n (fun p => { p with unmappedVaIntervals := uva })).mapVaToPa
        n vaStart paStart vaSize .TYPE_DATA).updatePT n
        (fun p => { p with pageTableEntries := p.pageTableEntries ++ [page] })).mappedPaIntervals =
      mgr.mappedPaIntervals.addRegion paStart vaSize none := rfl

/-- Specification of the loop of `allocate_cross_core_page` over distinct
table names: on success, each table whose name was processed gains exactly one
cross-core page at the shared `paStart` (others are unchanged), and the PA
region is added to `mapped_pa` once per processed name. -/
theorem crossCoreLoop_spec {mgr' : PageTableManager} {paStart sz : Int}
    {rVa : Nat → Nat × Nat} :
    ∀ (names : List String) (mgr : PageTableManager) (idx : Nat),
      names.Nodup →
      PageTableManager.crossCoreLoop mgr paStart sz names idx rVa = (.ok (), mgr') →
      (∀ pt' ∈ mgr'.pageTables, ∃ pt0 ∈ mgr.pageTables,
          pt0.pageTableName = pt'.pageTableName ∧
          ((pt'.pageTableName ∈ names ∧
              crossPageCount pt' paStart = crossPageCount pt0 paStart + 1) ∨
            (pt'.pageTableName ∉ names ∧
              crossPageCount pt' paStart = crossPageCount pt0 paStart))) ∧
      mgr'.mappedPaIntervals =
        names.foldl (fun l _ => l.addRegion paStart sz none) mgr.mappedPaIntervals := by
  intro names
  induction names with
  | nil =>
    intro mgr idx hnd h
    simp only [PageTableManager.crossCoreLoop] at h
    injection h with h1 h2
    subst h2
    exact ⟨fun pt' hpt' => ⟨pt', hpt', rfl, .inr ⟨by simp, rfl⟩⟩, rfl⟩
  | cons n rest ih =>
    intro mgr idx hnd h
    have hnotin : n ∉ rest := (List.nodup_cons.mp hnd).1
    have hndr : rest.Nodup := (List.nodup_cons.mp hnd).2
    simp only [PageTableManager.crossCoreLoop] at h
    split at h
    · exact absurd (congrArg Prod.fst h) (by simp)
    · next pt hpt =>
      split at h
      · exact absurd (congrArg Prod.fst h) (by simp)
      · next vaStart vaSize unmappedVa2 hfr =>
        obtain ⟨hvsz, -, -⟩ := findAndRemove_spec hfr
        obtain ⟨hTab, hPa⟩ := ih _ _ hndr h
        simp only [crossStep_tables] at hTab
        constructor
        · intro pt' hpt'
          obtain ⟨ptC, hmemC, hname, hrel⟩ := hTab pt' hpt'
          rw [List.mem_map] at hmemC
          obtain ⟨pt1, hpt1, hGeq⟩ := hmemC
          refine ⟨pt1, hpt1, ?_, ?_⟩
          · rw [← hname, ← hGeq]
            by_cases hn : pt1.pageTableName == n <;> simp [hn]
          · by_cases hn : pt1.pageTableName == n
            · have hneq : pt1.pageTableName = n := by simpa using hn
              have hCname : ptC.pageTableName = pt1.pageTableName := by
                rw [← hGeq]
                simp [hn]
              have hCcnt : crossPageCount ptC paStart =
                  crossPageCount pt1 paStart + 1 := by
                rw [← hGeq]
                simp [hn, crossPageCount, List.filter_append]
              rcases hrel with ⟨hmem, hcnt⟩ | ⟨hmem, hcnt⟩
              · rw [← hname, hCname, hneq] at hmem
                exact absurd hmem hnotin
              · refine .inl ⟨?_, by omega⟩
                rw [← hname, hCname, hneq]
                exact List.mem_cons_self n rest
            · have hCeq : ptC = pt1 := by
                rw [← hGeq]
                simp [hn]
              subst hCeq
              have hneq : pt'.pageTableName ≠ n := by
                rw [← hname]
                simpa using hn
              rcases hrel with ⟨hmem, hcnt⟩ | ⟨hmem, hcnt⟩
              · exact .inl ⟨List.mem_cons_of_mem n hmem, hcnt⟩
              · refine .inr ⟨?_, hcnt⟩
                rw [List.mem_cons]
                rintro (hc | hc)
                · exact hneq hc
                · exact hmem hc
        · rw [hPa, crossStep_mappedPa, List.foldl_cons, hvsz]


/-- `allocate_pa_interval` success: the returned manager only shrinks
`unmapped_pa` by the chosen block, whose start honours the alignment bits. -/
theorem allocatePaInterval_ok {mgr : PageTableManager} {size : Int}
    {ab : Option Int} {r1 r2 : Nat} {st sz : Int} {mgr1 : PageTableManager}
    (h : mgr.allocatePaInterval size ab r1 r2 = .ok ((st, sz), mgr1)) :
    mgr1 = { mgr with
      unmappedPaIntervals := mgr.unmappedPaIntervals.removeRegion st size } ∧
    (∀ b, ab = some b → ((2 : Int) ^ b.toNat) ∣ st) ∧
    sz = size ∧ 0 < size ∧
    (∃ i ∈ mgr.unmappedPaIntervals.intervals, i.start ≤ st ∧ st + size ≤ i.iend) := by
  rw [PageTableManager.allocatePaInterval] at h
  split at h
  · cases h
  · next res lib hfr =>
    injection h with h
    rw [Prod.mk.injEq] at h
    obtain ⟨h1, h2⟩ := h
    subst h1
    obtain ⟨hsz2, hrem, hfreg⟩ := findAndRemove_spec hfr
    obtain ⟨-, hpos2, hal, i, hi, -, hst1, hst2⟩ := findRegion_spec hfreg
    exact ⟨by rw [← h2, hrem], hal, hsz2, hpos2, i, hi, hst1, hst2⟩

/-- C4 (amended): a successful `allocate_cross_core_page` on a manager with
distinct page-table names picks a 21-bit-aligned 2 MiB PA start, gives every
registered page table exactly one additional cross-core `Page` at that PA
(each table's count of such pages rises by one), and records the PA region in
the manager's `mapped_pa` accounting once per registered page table — not
exactly once overall. -/
theorem c4_cross_core_fanout_per_table (mgr mgr' : PageTableManager)
    (rPa1 rPa2 : Nat) (rVa : Nat → Nat × Nat)
    (hnd : (mgr.pageTables.map (fun pt => pt.pageTableName)).Nodup)
    (hok : mgr.allocateCrossCorePage rPa1 rPa2 rVa = (.ok (), mgr')) :
    ∃ paStart : Int, ((2 : Int) ^ 21) ∣ paStart ∧
      (∀ pt' ∈ mgr'.pageTables, ∃ pt0 ∈ mgr.pageTables,
        pt0.pageTableName = pt'.pageTableName ∧
        crossPageCount pt' paStart = crossPageCount pt0 paStart + 1) ∧
      mgr'.mappedPaIntervals =
        (mgr.pageTables.map (fun pt => pt.pageTableName)).foldl
          (fun l _ => l.addRegion paStart PageSize.SIZE_2M.bytes none)
          mgr.mappedPaIntervals := by
  rw [PageTableManager.allocateCrossCorePage] at hok
  split at hok
  · exact absurd (congrArg Prod.fst hok) (by simp)
  · next paStart paSize mgr1 hpa =>
    obtain ⟨hm1, hal, -, -, -⟩ := allocatePaInterval_ok hpa
    subst hm1
    obtain ⟨hTab, hPa⟩ := crossCoreLoop_spec _ _ _ (by exact hnd) hok
    refine ⟨paStart, ?_, ?_, ?_⟩
    · exact hal 21 rfl
    · intro pt' hpt'
      obtain ⟨pt0, hmem, hname, hrel⟩ := hTab pt' hpt'
      refine ⟨pt0, hmem, hname, ?_⟩
      rcases hrel with ⟨-, hcnt⟩ | ⟨hnm, -⟩
      · exact hcnt
      · have : pt'.pageTableName ∈
            mgr.pageTables.map (fun pt => pt.pageTableName) := by
          rw [← hname]
          exact List.mem_map_of_mem (fun pt => pt.pageTableName) hmem
        exact absurd this hnm
    · exact hPa

/-- Manager with two registered page tables `A` and `B` for the cross-core
counterexample. -/
def c4Mgr0 : PageTableManager :=
  ((PageTableManager.init.createPageTable "A" "core_0" .EL3).2.createPageTable
    "B" "core_1" .EL3).2

/-- A concrete successful cross-core allocation on `c4Mgr0`. -/
def c4Run : Except PyErr Unit × PageTableManager :=
  c4Mgr0.allocateCrossCorePage 0 0 (fun _ => (0, 0))

/-- C4 (counterexample to the claim as stated): on a manager with two page
tables, a successful `allocate_cross_core_page` (which picks the PA region
`[0x80200000, 0x80200000 + 2 MiB)`) leaves TWO identical entries for that
region in the manager's `mapped_pa` interval accounting — the loop adds the
region once per page table — contradicting "the chosen 2 MiB PA region
appears exactly once (no duplicate or overlapping entry)". -/
theorem c4_counterexample :
    c4Run.1 = .ok () ∧ c4Mgr0.pageTables.length = 2 ∧
    (c4Run.2.mappedPaIntervals.intervals.filter
      (fun i => decide (i.start = 0x80200000) &&
        decide (i.size = PageSize.SIZE_2M.bytes))).length = 2 :=
  ⟨by rfl, by rfl, by rfl⟩

theorem c4_cross_core_fanout_per_table_witness :
    ∃ paStart : Int, ((2 : Int) ^ 21) ∣ paStart ∧
      (∀ pt' ∈ c4Run.2.pageTables, ∃ pt0 ∈ c4Mgr0.pageTables,
        pt0.pageTableName = pt'.pageTableName ∧
        crossPageCount pt' paStart = crossPageCount pt0 paStart + 1) ∧
      c4Run.2.mappedPaIntervals =
        (c4Mgr0.pageTables.map (fun pt => pt.pageTableName)).foldl
          (fun l _ => l.addRegion paStart PageSize.SIZE_2M.bytes none)
          c4Mgr0.mappedPaIntervals :=
  c4_cross_core_fanout_per_table c4Mgr0 c4Run.2 0 0 (fun _ => (0, 0))
    (by decide) (by rfl)


/-! ### Claim C3: canonical form of the interval store -/

/-- Two intervals cover no common address. -/
def DisjI (a b : Interval) : Prop := ∀ x : Int, ¬ (coveredI a x ∧ coveredI b x)

/-- The canonical-neighbour relation of a well-formed store: ordered without
overlap, and not mergeable (not address-adjacent with dict-equal metadata). -/
def CanonR (a b : Interval) : Prop := a.iend ≤ b.start ∧ a.canMergeWith b = false

/-- A well-formed store: positive sizes, sorted with pairwise-disjoint
intervals, and no mergeable neighbours. -/
def Canon (l : List Interval) : Prop :=
  (∀ i ∈ l, 0 < i.size) ∧ l.Chain' CanonR

/-- An `add_region`/`remove_region` call. -/
inductive AROp
  | add (start size : Int) (md : Option Metadata)
  | rem (start size : Int)

/-- Run a sequence of add/remove calls. -/
def runAR (lib : IntervalLib) : List AROp → IntervalLib
  | [] => lib
  | .add s sz md :: rest => runAR (lib.addRegion s sz md) rest
  | .rem s sz :: rest => runAR (lib.removeRegion s sz) rest

/-- C3's precondition: every `add_region` of the sequence overlaps no interval
stored at the moment of the call. -/
def arAddsDisjoint (lib : IntervalLib) : List AROp → Bool
  | [] => true
  | .add s sz md :: rest =>
    lib.intervals.all (fun i => !(i.overlapsB s sz)) &&
      arAddsDisjoint (lib.addRegion s sz md) rest
  | .rem s sz :: rest => arAddsDisjoint (lib.removeRegion s sz) rest

theorem disjI_symm {a b : Interval} (h : DisjI a b) : DisjI b a := by
  intro x hx
  exact h x ⟨hx.2, hx.1⟩

theorem disjI_of_le {a b : Interval} (h : a.iend ≤ b.start ∨ b.iend ≤ a.start) :
    DisjI a b := by
  intro x hx
  obtain ⟨⟨h1, h2⟩, h3, h4⟩ := hx
  unfold Interval.iend at *
  omega

theorem le_of_disjI {a b : Interval} (ha : 0 < a.size) (hb : 0 < b.size)
    (h : DisjI a b) : a.iend ≤ b.start ∨ b.iend ≤ a.start := by
  by_contra hc
  push_neg at hc
  exact h (max a.start b.start)
    ⟨⟨le_max_left _ _, by unfold Interval.iend at *; omega⟩,
      le_max_right _ _, by unfold Interval.iend at *; omega⟩

theorem isAdjacent_symm (i o : Interval) : i.isAdjacent o = o.isAdjacent i := by
  unfold Interval.isAdjacent
  rw [Bool.or_comm]

theorem dictEqB_symm (m1 m2 : Metadata) : dictEqB m1 m2 = dictEqB m2 m1 := by
  by_cases h : mcanon m1 = mcanon m2
  · simp [dictEqB, h]
  · have h2 : ¬ mcanon m2 = mcanon m1 := fun hc => h hc.symm
    simp [dictEqB, beq_iff_eq, h, h2]

theorem canMergeWith_symm (i o : Interval) :
    i.canMergeWith o = o.canMergeWith i := by
  unfold Interval.canMergeWith
  rw [isAdjacent_symm, dictEqB_symm]

theorem canMerge_false_of_far {a b : Interval} (h : a.iend < b.start)
    (hapos : 0 < a.size) (hbpos : 0 < b.size) : a.canMergeWith b = false := by
  have hadj : a.isAdjacent b = false := by
    rw [← Bool.not_eq_true, isAdjacent_eq_true]
    unfold Interval.iend at *
    omega
  rw [Interval.canMergeWith, hadj]
  rfl

/-- In a sorted disjoint store of positive intervals, the head sits fully
below every later element. -/
theorem chain_le_all {a : Interval} :
    ∀ {l : List Interval}, (∀ i ∈ l, 0 < i.size) →
      List.Chain' (fun x y => x.iend ≤ y.start) (a :: l) →
      ∀ b ∈ l, a.iend ≤ b.start
  | [], _, _ => by simp
  | c :: l, hpos, hch => by
    intro b hb
    rw [List.chain'_cons] at hch
    rcases List.mem_cons.mp hb with rfl | hb'
    · exact hch.1
    · have hc := chain_le_all (fun i hi => hpos i (List.mem_cons_of_mem c hi))
        hch.2 b hb'
      have hcpos := hpos c (List.mem_cons_self c l)
      unfold Interval.iend at *
      omega

/-- A canonical store is pairwise non-overlapping and has no mergeable pair,
in either order. -/
theorem canon_pairwise : ∀ {l : List Interval}, Canon l →
    l.Pairwise (fun a b => a.overlapsB b.start b.size = false ∧
      a.canMergeWith b = false ∧ b.canMergeWith a = false)
  | [], _ => List.Pairwise.nil
  | a :: l, hc => by
    obtain ⟨hpos, hch⟩ := hc
    have hposl : ∀ i ∈ l, 0 < i.size := fun i hi => hpos i (List.mem_cons_of_mem a hi)
    have hchl : l.Chain' CanonR := (List.chain'_cons'.mp hch).2
    refine List.Pairwise.cons ?_ (canon_pairwise ⟨hposl, hchl⟩)
    intro b hb
    cases l with
    | nil => cases hb
    | cons c l' =>
      rw [List.chain'_cons] at hch
      obtain ⟨⟨hle, hnm⟩, hch'⟩ := hch
      have hapos := hpos a (List.mem_cons_self _ _)
      have hbpos := hposl b hb
      rcases List.mem_cons.mp hb with rfl | hb'
      · refine ⟨?_, hnm, ?_⟩
        · rw [← Bool.not_eq_true, overlapsB_eq_true]
          unfold Interval.iend at *
          omega
        · rw [canMergeWith_symm]
          exact hnm
      · have hcpos := hposl c (List.mem_cons_self _ _)
        have hcb : c.iend ≤ b.start := by
          refine chain_le_all (fun i hi => hposl i (List.mem_cons_of_mem c hi))
            ?_ b hb'
          exact List.Chain'.imp (fun x y hxy => hxy.1) hch'
        have hfar : a.iend < b.start := by
          unfold Interval.iend at *
          omega
        refine ⟨?_, canMerge_false_of_far hfar hapos hbpos, ?_⟩
        · rw [← Bool.not_eq_true, overlapsB_eq_true]
          unfold Interval.iend at *
          omega
        · rw [canMergeWith_symm]
          exact canMerge_false_of_far hfar hapos hbpos


theorem stableInsert_head {α : Type} (le : α → α → Bool) (x : α) :
    ∀ (l : List α), (stableInsert le x l).head? = some x ∨
      (stableInsert le x l).head? = l.head?
  | [] => .inl rfl
  | y :: ys => by
    rw [stableInsert]
    split
    · exact .inl rfl
    · exact .inr rfl

theorem stableInsert_chain {α : Type} (le : α → α → Bool)
    (htot : ∀ a b, le a b = false → le b a = true) (x : α) :
    ∀ {l : List α}, List.Chain' (fun a b => le a b = true) l →
      List.Chain' (fun a b => le a b = true) (stableInsert le x l)
  | [], _ => List.chain'_singleton x
  | y :: ys, h => by
    rw [stableInsert]
    split
    · next hxy => exact List.chain'_cons.mpr ⟨hxy, h⟩
    · next hxy =>
      have hyx : le y x = true := htot x y (by simpa using hxy)
      obtain ⟨hhead, hys⟩ := List.chain'_cons'.mp h
      refine List.chain'_cons'.mpr ⟨?_, stableInsert_chain le htot x hys⟩
      intro z hz
      rcases stableInsert_head le x ys with hh | hh
      · rw [hh] at hz
        cases hz
        exact hyx
      · rw [hh] at hz
        exact hhead z hz

theorem stableSort_chain {α : Type} (le : α → α → Bool)
    (htot : ∀ a b, le a b = false → le b a = true) :
    ∀ (l : List α), List.Chain' (fun a b => le a b = true) (stableSort le l)
  | [] => List.chain'_nil
  | x :: xs => stableInsert_chain le htot x (stableSort_chain le htot xs)

theorem sortIntervals_chain (l : List Interval) :
    List.Chain' (fun a b : Interval => a.start ≤ b.start) (sortIntervals l) := by
  have h := stableSort_chain (fun a b : Interval => decide (a.start ≤ b.start))
    (fun a b hab => by
      rw [decide_eq_true_eq]
      rw [decide_eq_false_iff_not] at hab
      omega) l
  exact List.Chain'.imp (fun a b hab => by
    rw [decide_eq_true_eq] at hab
    exact hab) h

/-- Sorted, pairwise-disjoint positive intervals are chained end-to-start. -/
theorem chain_iend_of_sorted :
    ∀ {l : List Interval}, (∀ i ∈ l, 0 < i.size) →
      List.Chain' (fun a b : Interval => a.start ≤ b.start) l →
      l.Pairwise DisjI →
      List.Chain' (fun a b : Interval => a.iend ≤ b.start) l
  | [], _, _, _ => List.chain'_nil
  | [x], _, _, _ => List.chain'_singleton x
  | a :: b :: l, hpos, hch, hpw => by
    rw [List.chain'_cons] at hch ⊢
    obtain ⟨hab, hpwt⟩ := List.pairwise_cons.mp hpw
    refine ⟨?_, chain_iend_of_sorted
      (fun i hi => hpos i (List.mem_cons_of_mem a hi)) hch.2 hpwt⟩
    have hd := hab b (List.mem_cons_self _ _)
    have hap := hpos a (List.mem_cons_self _ _)
    have hbp := hpos b (List.mem_cons_of_mem a (List.mem_cons_self _ _))
    rcases le_of_disjI hap hbp hd with h | h
    · exact h
    · unfold Interval.iend at *
      omega

/-- The merge sweep of sorted disjoint positive intervals yields a canonical
store that keeps the first interval's start and metadata. -/
theorem mergeLoop_canon :
    ∀ (l : List Interval) (cur : Interval), 0 < cur.size →
      (∀ i ∈ l, 0 < i.size) →
      List.Chain' (fun a b : Interval => a.iend ≤ b.start) (cur :: l) →
      ∃ first rest', mergeLoop cur l = first :: rest' ∧
        first.start = cur.start ∧ first.metadata = cur.metadata ∧
        (∀ i ∈ mergeLoop cur l, 0 < i.size) ∧
        List.Chain' CanonR (mergeLoop cur l)
  | [], cur, hc, _, _ =>
    ⟨cur, [], rfl, rfl, rfl, by
      intro i hi
      rw [mergeLoop] at hi
      simp at hi
      subst hi
      exact hc, List.chain'_singleton cur⟩
  | b :: rest, cur, hc, hpos, hch => by
    rw [mergeLoop]
    split
    · next hm =>
      have hbpos := hpos b (List.mem_cons_self _ _)
      rw [List.chain'_cons] at hch
      have hadj : cur.iend = b.start := by
        have h2 := canMergeWith_adjacent hm
        rw [isAdjacent_eq_true] at h2
        rcases h2 with h2 | h2
        · exact h2
        · exfalso
          have := hch.1
          unfold Interval.iend at *
          omega
      have hms : (cur.mergeWith b).start = cur.start := by
        simp only [Interval.mergeWith]
        unfold Interval.iend at hadj
        omega
      have hmm : (cur.mergeWith b).metadata = cur.metadata := rfl
      have hmp : 0 < (cur.mergeWith b).size := by
        simp only [Interval.mergeWith]
        unfold Interval.iend at *
        omega
      have hmiend : (cur.mergeWith b).iend = b.iend := by
        simp only [Interval.mergeWith, Interval.iend]
        unfold Interval.iend at hadj
        omega
      have hch2 : List.Chain' (fun a b : Interval => a.iend ≤ b.start)
          (cur.mergeWith b :: rest) := by
        rw [List.chain'_cons']
        refine ⟨?_, (List.chain'_cons'.mp hch.2).2⟩
        intro z hz
        rw [hmiend]
        exact (List.chain'_cons'.mp hch.2).1 z hz
      obtain ⟨first, rest', heq, hfs, hfm, hposres, hchres⟩ :=
        mergeLoop_canon rest (cur.mergeWith b) hmp
          (fun i hi => hpos i (List.mem_cons_of_mem b hi)) hch2
      exact ⟨first, rest', heq, by rw [hfs, hms], by rw [hfm, hmm],
        hposres, hchres⟩
    · next hm =>
      rw [List.chain'_cons] at hch
      have hbpos := hpos b (List.mem_cons_self _ _)
      obtain ⟨first, rest', heq, hfs, hfm, hposres, hchres⟩ :=
        mergeLoop_canon rest b hbpos
          (fun i hi => hpos i (List.mem_cons_of_mem b hi)) hch.2
      have hfpos : 0 < first.size := hposres first (heq ▸ List.mem_cons_self _ _)
      rw [Bool.not_eq_true] at hm
      have hmfalse : cur.canMergeWith first = false := by
        by_cases hadj2 : cur.iend = b.start
        · have hdq : dictEqB cur.metadata b.metadata = false := by
            have hadjT : cur.isAdjacent b = true :=
              isAdjacent_eq_true.mpr (Or.inl hadj2)
            rw [Interval.canMergeWith, hadjT, Bool.true_and] at hm
            exact hm
          rw [Interval.canMergeWith, hfm, hdq, Bool.and_false]
        · have hadjF : cur.isAdjacent first = false := by
            rw [← Bool.not_eq_true, isAdjacent_eq_true]
            rintro (h2 | h2)
            · rw [hfs] at h2
              exact hadj2 h2
            · have h3 := hch.1
              unfold Interval.iend at *
              omega
          rw [Interval.canMergeWith, hadjF, Bool.false_and]
      rw [heq]
      refine ⟨cur, first :: rest', rfl, rfl, rfl, ?_, ?_⟩
      · intro i hi
        rcases List.mem_cons.mp hi with rfl | hi'
        · exact hc
        · exact hposres i (heq ▸ hi')
      · rw [List.chain'_cons]
        exact ⟨⟨by rw [hfs]; exact hch.1, hmfalse⟩, heq ▸ hchres⟩

/-- The merge pass turns any positive, pairwise-disjoint interval list into a
canonical store. -/
theorem mergeAdjacent_canon (lib : IntervalLib)
    (hpos : ∀ i ∈ lib.intervals, 0 < i.size)
    (hpw : lib.intervals.Pairwise DisjI) :
    Canon (lib.mergeAdjacentIntervals).intervals := by
  rw [IntervalLib.mergeAdjacentIntervals]
  split
  · next hlen =>
    refine ⟨hpos, ?_⟩
    rcases hl : lib.intervals with _ | ⟨x, _ | ⟨y, t⟩⟩
    · exact List.chain'_nil
    · exact List.chain'_singleton x
    · rw [hl] at hlen
      simp at hlen
      exact absurd hlen (by omega)
  · split
    · next hsort =>
      exact ⟨by simp, List.chain'_nil⟩
    · next x xs hsort =>
      have hperm : (sortIntervals lib.intervals).Perm lib.intervals :=
        stableSort_perm _ _
      rw [hsort] at hperm
      have hpos2 : ∀ i ∈ x :: xs, 0 < i.size := fun i hi =>
        hpos i (hperm.mem_iff.mp hi)
      have hpw2 : (x :: xs).Pairwise DisjI :=
        (List.Perm.pairwise_iff (fun hab => disjI_symm hab) hperm).mpr hpw
      have hsorted : List.Chain' (fun a b : Interval => a.start ≤ b.start)
          (x :: xs) := by
        have := sortIntervals_chain lib.intervals
        rw [hsort] at this
        exact this
      have hchain := chain_iend_of_sorted hpos2 hsorted hpw2
      obtain ⟨first, rest', heq, -, -, hposres, hchres⟩ :=
        mergeLoop_canon xs x (hpos2 x (List.mem_cons_self _ _))
          (fun i hi => hpos2 i (List.mem_cons_of_mem x hi)) hchain
      exact ⟨hposres, hchres⟩


theorem addFoldStep_singleton (acc1 : List Interval) (cur i : Interval) :
    addFoldStep (acc1, [cur]) i =
      if cur.canMergeWith i then (acc1, [cur.mergeWith i])
      else (acc1 ++ [i], [cur]) := by
  by_cases h : cur.canMergeWith i
  · simp [addFoldStep, tryMergeList, h]
  · simp [addFoldStep, tryMergeList, h]

theorem mergeWith_pos {a b : Interval} (ha : 0 < a.size) :
    0 < (a.mergeWith b).size := by
  simp only [Interval.mergeWith]
  unfold Interval.iend
  omega

theorem disjI_of_overlapsB_false {a b : Interval}
    (h : a.overlapsB b.start b.size = false) : DisjI a b := by
  rw [← Bool.not_eq_true, overlapsB_eq_true] at h
  refine disjI_of_le ?_
  unfold Interval.iend at *
  omega

theorem disjI_mergeWith {a b c : Interval} (hadj : a.isAdjacent b = true)
    (h1 : DisjI a c) (h2 : DisjI b c) : DisjI (a.mergeWith b) c := by
  intro x hx
  rw [coveredI_mergeWith hadj] at hx
  rcases hx.1 with h | h
  · exact h1 x ⟨h, hx.2⟩
  · exact h2 x ⟨h, hx.2⟩

/-- Invariant of `add_region`'s accumulation loop: the merge accumulator stays
a single positive interval carrying the new metadata, disjoint from every kept
interval, and the kept list stays pairwise disjoint. -/
theorem addFold_canon (newMd : Metadata) :
    ∀ (l : List Interval) (acc1 : List Interval) (cur : Interval),
      (∀ i ∈ l, 0 < i.size) → l.Pairwise DisjI →
      (∀ r ∈ acc1, 0 < r.size) → acc1.Pairwise DisjI →
      0 < cur.size → cur.metadata = newMd →
      (∀ r ∈ acc1, DisjI cur r) →
      (∀ i ∈ l, DisjI cur i) →
      (∀ i ∈ l, ∀ r ∈ acc1, DisjI i r) →
      ∃ acc1' curF, l.foldl addFoldStep (acc1, [cur]) = (acc1', [curF]) ∧
        (∀ r ∈ acc1', 0 < r.size) ∧ acc1'.Pairwise DisjI ∧
        0 < curF.size ∧ curF.metadata = newMd ∧ (∀ r ∈ acc1', DisjI curF r)
  | [], acc1, cur, _, _, h3, h4, h5, h6, h7, _, _ =>
    ⟨acc1, cur, rfl, h3, h4, h5, h6, h7⟩
  | i :: rest, acc1, cur, hlpos, hlpw, hapos, hapw, hcpos, hcmd, hca, hcl, hcross => by
    rw [List.foldl_cons, addFoldStep_singleton]
    have hipos := hlpos i (List.mem_cons_self _ _)
    obtain ⟨hheadpw, hrestpw⟩ := List.pairwise_cons.mp hlpw
    split
    · next hm =>
      have hadj := canMergeWith_adjacent hm
      refine addFold_canon newMd rest acc1 (cur.mergeWith i)
        (fun j hj => hlpos j (List.mem_cons_of_mem i hj)) hrestpw
        hapos hapw (mergeWith_pos hcpos) hcmd ?_ ?_
        (fun j hj r hr => hcross j (List.mem_cons_of_mem i hj) r hr)
      · intro r hr
        exact disjI_mergeWith hadj (hca r hr) (hcross i (List.mem_cons_self _ _) r hr)
      · intro j hj
        exact disjI_mergeWith hadj (hcl j (List.mem_cons_of_mem i hj)) (hheadpw j hj)
    · next hm =>
      refine addFold_canon newMd rest (acc1 ++ [i]) cur
        (fun j hj => hlpos j (List.mem_cons_of_mem i hj)) hrestpw
        ?_ ?_ hcpos hcmd ?_
        (fun j hj => hcl j (List.mem_cons_of_mem i hj)) ?_
      · intro r hr
        rcases List.mem_append.mp hr with hr | hr
        · exact hapos r hr
        · rw [List.mem_singleton] at hr
          exact hr ▸ hipos
      · rw [List.pairwise_append]
        refine ⟨hapw, List.pairwise_singleton _ _, ?_⟩
        intro r hr j hj
        rw [List.mem_singleton] at hj
        rw [hj]
        exact disjI_symm (hcross i (List.mem_cons_self _ _) r hr)
      · intro r hr
        rcases List.mem_append.mp hr with hr | hr
        · exact hca r hr
        · rw [List.mem_singleton] at hr
          exact hr ▸ hcl i (List.mem_cons_self _ _)
      · intro j hj r hr
        rcases List.mem_append.mp hr with hr | hr
        · exact hcross j (List.mem_cons_of_mem i hj) r hr
        · rw [List.mem_singleton] at hr
          subst hr
          exact disjI_symm (hheadpw j hj)

/-- `add_region` of a region that overlaps no stored interval keeps the store
canonical. -/
theorem addRegion_canon (lib : IntervalLib) (s sz : Int) (md : Option Metadata)
    (hc : Canon lib.intervals)
    (hdisj : ∀ i ∈ lib.intervals, i.overlapsB s sz = false) :
    Canon (lib.addRegion s sz md).intervals := by
  rw [IntervalLib.addRegion]
  split
  · exact hc
  · next hsz =>
    have hpos := hc.1
    have hpw : lib.intervals.Pairwise DisjI := by
      refine List.Pairwise.imp ?_ (canon_pairwise hc)
      intro a b hab
      exact disjI_of_overlapsB_false hab.1
    have hnd : ∀ i ∈ lib.intervals,
        DisjI (⟨s, sz, mupdate lib.defaultMetadata (md.getD [])⟩ : Interval) i := by
      intro i hi
      exact disjI_symm (disjI_of_overlapsB_false (hdisj i hi))
    obtain ⟨acc1', curF, heq, ha1, ha2, ha3, ha4, ha5⟩ :=
      addFold_canon (mupdate lib.defaultMetadata (md.getD []))
        lib.intervals [] ⟨s, sz, mupdate lib.defaultMetadata (md.getD [])⟩
        hpos hpw (by simp) (List.Pairwise.nil) (by dsimp only; omega) rfl
        (by simp) hnd (by simp)
    dsimp only
    rw [heq]
    refine mergeAdjacent_canon _ ?_ ?_
    · intro i hi
      rcases List.mem_append.mp hi with hi | hi
      · exact ha1 i hi
      · rw [List.mem_singleton] at hi
        exact hi ▸ ha3
    · rw [List.pairwise_append]
      refine ⟨ha2, List.pairwise_singleton _ _, ?_⟩
      intro r hr j hj
      rw [List.mem_singleton] at hj
      subst hj
      exact disjI_symm (ha5 r hr)


theorem mem_of_getLast? {α : Type} {l : List α} {x : α} (h : x ∈ l.getLast?) :
    x ∈ l := by
  obtain ⟨hne, rfl⟩ := List.mem_getLast?_eq_getLast h
  exact List.getLast_mem hne

/-- Every surviving fragment of `remove_region`'s per-interval case analysis
is a positive sub-range of the interval with the same metadata. -/
theorem removePiece_mem {s sz : Int} {i p : Interval} (hsz : 0 < sz)
    (hip : 0 < i.size) (hp : p ∈ IntervalLib.removePiece s sz i) :
    0 < p.size ∧ i.start ≤ p.start ∧ p.iend ≤ i.iend ∧ p.metadata = i.metadata := by
  rw [IntervalLib.removePiece] at hp
  split at hp
  · rw [List.mem_singleton] at hp
    subst hp
    exact ⟨hip, le_refl _, le_refl _, rfl⟩
  · next hovl =>
    rw [Bool.not_eq_true, Bool.not_eq_false', overlapsB_eq_true] at hovl
    split at hp
    · next hcont =>
      rw [containsB_eq_true] at hcont
      rw [Interval.splitAt] at hp
      dsimp only at hp
      rw [List.mem_append] at hp
      rcases hp with hp | hp
      · split at hp
        · next hbef =>
          simp only [Option.toList, List.mem_singleton] at hp
          subst hp
          refine ⟨by dsimp only; omega, by dsimp only; omega, ?_, rfl⟩
          unfold Interval.iend at *
          dsimp only
          omega
        · simp [Option.toList] at hp
      · split at hp
        · next haft =>
          simp only [Option.toList, List.mem_singleton] at hp
          subst hp
          refine ⟨?_, ?_, ?_, rfl⟩ <;> unfold Interval.iend at * <;> dsimp only <;> omega
        · simp [Option.toList] at hp
    · split at hp
      · simp at hp
      · split at hp
        · next hbeg =>
          rw [decide_eq_true_eq] at hbeg
          dsimp only at hp
          split at hp
          · next hrs =>
            rw [List.mem_singleton] at hp
            subst hp
            refine ⟨?_, ?_, ?_, rfl⟩ <;> unfold Interval.iend at * <;> dsimp only <;> omega
          · simp at hp
        · next hbeg =>
          dsimp only at hp
          split at hp
          · next hrs =>
            rw [List.mem_singleton] at hp
            subst hp
            refine ⟨?_, ?_, ?_, rfl⟩ <;> unfold Interval.iend at * <;> dsimp only <;> omega
          · simp at hp

/-- The fragments of one interval form a canonical chain (at most two pieces,
separated by the removed gap). -/
theorem removePiece_chain (s sz : Int) (i : Interval) (hsz : 0 < sz) :
    List.Chain' CanonR (IntervalLib.removePiece s sz i) := by
  rw [IntervalLib.removePiece]
  split
  · exact List.chain'_singleton i
  · split
    · next hcont =>
      rw [containsB_eq_true] at hcont
      rw [Interval.splitAt]
      dsimp only
      split
      · next hbef =>
        split
        · next haft =>
          simp only [Option.toList]
          rw [List.singleton_append, List.chain'_cons]
          refine ⟨⟨?_, ?_⟩, List.chain'_singleton _⟩
          · unfold Interval.iend
            dsimp only
            omega
          · refine canMerge_false_of_far ?_ ?_ ?_ <;>
              unfold Interval.iend at * <;> dsimp only <;> omega
        · simp only [Option.toList, List.append_nil]
          exact List.chain'_singleton _
      · split
        · simp only [Option.toList, List.nil_append]
          exact List.chain'_singleton _
        · exact List.chain'_nil
    · split
      · exact List.chain'_nil
      · split
        · dsimp only
          split
          · exact List.chain'_singleton _
          · exact List.chain'_nil
        · dsimp only
          split
          · exact List.chain'_singleton _
          · exact List.chain'_nil

/-- Removing a region keeps the flattened fragment list canonical, with the
head fragment below-bounded by the head interval. -/
theorem pieces_flatten_chain (s sz : Int) (hsz : 0 < sz) :
    ∀ (l : List Interval), (∀ i ∈ l, 0 < i.size) → List.Chain' CanonR l →
      List.Chain' CanonR ((l.map (IntervalLib.removePiece s sz)).flatten) ∧
      (∀ p ∈ (l.map (IntervalLib.removePiece s sz)).flatten, 0 < p.size) ∧
      (∀ y ∈ ((l.map (IntervalLib.removePiece s sz)).flatten).head?,
        ∀ h ∈ l.head?, h.start ≤ y.start ∧
          (y.start = h.start → y.metadata = h.metadata))
  | [], _, _ => ⟨List.chain'_nil, by simp, by simp⟩
  | h :: l', hpos, hch => by
    have hhp := hpos h (List.mem_cons_self _ _)
    have hposl' : ∀ i ∈ l', 0 < i.size := fun i hi => hpos i (List.mem_cons_of_mem h hi)
    have hchl' : l'.Chain' CanonR := (List.chain'_cons'.mp hch).2
    obtain ⟨ih1, ih2, ih3⟩ := pieces_flatten_chain s sz hsz l' hposl' hchl'
    rw [List.map_cons, List.flatten_cons]
    have hbound : ∀ x ∈ (IntervalLib.removePiece s sz h).getLast?,
        ∀ y ∈ ((l'.map (IntervalLib.removePiece s sz)).flatten).head?, CanonR x y := by
      intro x hx y hy
      have hxmem := mem_of_getLast? hx
      obtain ⟨hxpos, hxs, hxe, hxm⟩ := removePiece_mem hsz hhp hxmem
      cases l' with
      | nil => simp at hy
      | cons h2 l2 =>
        have hh2p := hposl' h2 (List.mem_cons_self _ _)
        rw [List.chain'_cons] at hch
        obtain ⟨hle12, hnm12⟩ := hch.1
        obtain ⟨hys, hymeta⟩ := ih3 y hy h2 (by simp)
        have hypos : 0 < y.size := ih2 y (List.mem_of_mem_head? hy)
        refine ⟨by unfold Interval.iend at *; omega, ?_⟩
        by_cases hadj : x.iend = y.start
        · have hsq1 : x.iend = h.iend := by unfold Interval.iend at *; omega
          have hsq2 : y.start = h2.start := by unfold Interval.iend at *; omega
          have hadjT : h.isAdjacent h2 = true := by
            rw [isAdjacent_eq_true]
            left
            unfold Interval.iend at *
            omega
          have hdq : dictEqB h.metadata h2.metadata = false := by
            rw [Interval.canMergeWith, hadjT, Bool.true_and] at hnm12
            exact hnm12
          have hym : y.metadata = h2.metadata := hymeta hsq2
          rw [Interval.canMergeWith, hxm, hym, hdq, Bool.and_false]
        · have hadjF : x.isAdjacent y = false := by
            rw [← Bool.not_eq_true, isAdjacent_eq_true]
            rintro (h2' | h2')
            · exact hadj h2'
            · unfold Interval.iend at *
              omega
          rw [Interval.canMergeWith, hadjF, Bool.false_and]
    refine ⟨?_, ?_, ?_⟩
    · rw [List.chain'_append]
      exact ⟨removePiece_chain s sz h hsz, ih1, hbound⟩
    · intro p hp
      rcases List.mem_append.mp hp with hp | hp
      · exact (removePiece_mem hsz hhp hp).1
      · exact ih2 p hp
    · intro y hy hh hhh
      rw [List.head?_cons] at hhh
      cases hhh
      rcases hPieces : IntervalLib.removePiece s sz h with _ | ⟨p, ps⟩
      · rw [hPieces, List.nil_append] at hy
        cases l' with
        | nil => simp at hy
        | cons h2 l2 =>
          have hh2p := hposl' h2 (List.mem_cons_self _ _)
          rw [List.chain'_cons] at hch
          obtain ⟨hys, -⟩ := ih3 y hy h2 (by simp)
          have hle12 := hch.1.1
          constructor
          · unfold Interval.iend at *
            omega
          · intro heq
            exfalso
            unfold Interval.iend at *
            omega
      · rw [hPieces, List.cons_append, List.head?_cons] at hy
        simp only [Option.mem_def, Option.some.injEq] at hy
        have hymem : y ∈ IntervalLib.removePiece s sz h := by
          rw [hPieces, ← hy]
          exact List.mem_cons_self _ _
        obtain ⟨-, hps, -, hpm⟩ := removePiece_mem hsz hhp hymem
        exact ⟨hps, fun _ => hpm⟩

/-- `remove_region` keeps the store canonical. -/
theorem removeRegion_canon (lib : IntervalLib) (s sz : Int)
    (hc : Canon lib.intervals) : Canon (lib.removeRegion s sz).intervals := by
  rw [IntervalLib.removeRegion]
  split
  · exact hc
  · next hsz =>
    obtain ⟨h1, h2, -⟩ := pieces_flatten_chain s sz (by omega) lib.intervals hc.1 hc.2
    exact ⟨h2, h1⟩


/-- A freshly constructed store is canonical. -/
theorem init_canon (o1 o2 : Option Int) (dmd : Metadata) :
    Canon (IntervalLib.init o1 o2 dmd).intervals := by
  rcases o1 with _ | s <;> rcases o2 with _ | t <;>
    simp only [IntervalLib.init]
  · exact ⟨by simp, List.chain'_nil⟩
  · exact ⟨by simp, List.chain'_nil⟩
  · exact ⟨by simp, List.chain'_nil⟩
  · exact addRegion_canon ⟨[], dmd⟩ s t (some dmd) ⟨by simp, List.chain'_nil⟩
      (by simp)

/-- Any run of `add_region`/`remove_region` calls whose adds never overlap the
store keeps the store canonical. -/
theorem runAR_canon : ∀ (ops : List AROp) (lib : IntervalLib),
    Canon lib.intervals → arAddsDisjoint lib ops = true →
    Canon (runAR lib ops).intervals
  | [], _, hc, _ => hc
  | .add s sz md :: rest, lib, hc, hok => by
    rw [runAR]
    rw [arAddsDisjoint, Bool.and_eq_true] at hok
    have hall : ∀ i ∈ lib.intervals, i.overlapsB s sz = false := by
      have h1 := hok.1
      rw [List.all_eq_true] at h1
      intro i hi
      have := h1 i hi
      rwa [Bool.not_eq_true'] at this
    exact runAR_canon rest _ (addRegion_canon lib s sz md hc hall) hok.2
  | .rem s sz :: rest, lib, hc, hok => by
    rw [runAR]
    rw [arAddsDisjoint] at hok
    exact runAR_canon rest _ (removeRegion_canon lib s sz hc) hok

/-- C3: starting from any freshly initialized interval store, after any
sequence of `add_region` and `remove_region` calls in which no added region
overlaps an interval stored at the time of the call, the stored intervals are
pairwise non-overlapping and no two stored intervals are mergeable — i.e. no
two adjacent (end-touching-start) intervals carry dict-equal metadata; such
pairs have been merged by the add path's sweep. -/
theorem c3_add_remove_canonical (o1 o2 : Option Int) (dmd : Metadata)
    (ops : List AROp)
    (hok : arAddsDisjoint (IntervalLib.init o1 o2 dmd) ops = true) :
    (runAR (IntervalLib.init o1 o2 dmd) ops).intervals.Pairwise
      (fun a b => a.overlapsB b.start b.size = false ∧
        a.canMergeWith b = false ∧ b.canMergeWith a = false) :=
  canon_pairwise (runAR_canon ops _ (init_canon o1 o2 dmd) hok)

theorem c3_add_remove_canonical_witness :
    arAddsDisjoint (IntervalLib.init (some 4096) (some 4096) []) 
      [.add 16384 4096 none, .rem 4608 256] = true ∧
    (runAR (IntervalLib.init (some 4096) (some 4096) [])
      [.add 16384 4096 none, .rem 4608 256]).intervals.Pairwise
      (fun a b => a.overlapsB b.start b.size = false ∧
        a.canMergeWith b = false ∧ b.canMergeWith a = false) :=
  ⟨by rfl, c3_add_remove_canonical (some 4096) (some 4096) []
    [.add 16384 4096 none, .rem 4608 256] (by rfl)⟩


/-! ### Claim C1: the four-set interval-state invariant -/

/-- Membership in the initial VA range `[0x80200000, 0x80200000 + 8 GiB)`. -/
def inVaRange (a : Int) : Prop :=
  vaMemoryRangeStartAddress ≤ a ∧ a < vaMemoryRangeStartAddress + vaMemoryRangeSize

instance (a : Int) : Decidable (inVaRange a) := by
  unfold inVaRange; infer_instance

/-- Membership in the initial PA range. -/
def inPaRange (a : Int) : Prop :=
  paMemoryRangeStartAddress ≤ a ∧ a < paMemoryRangeStartAddress + paMemoryRangeSize

/-- The §3 VA invariant of one page table, as covered-address sets:
`unmapped ∪ mapped` is exactly the initial range with the two disjoint, and
`allocated ∪ non_allocated` is exactly `mapped` with the two disjoint. -/
def VaInv (pt : PageTable) : Prop :=
  (∀ a : Int, (covered pt.unmappedVaIntervals a ∨ covered pt.mappedVaIntervals a) ↔
    inVaRange a) ∧
  (∀ a : Int, ¬ (covered pt.unmappedVaIntervals a ∧ covered pt.mappedVaIntervals a)) ∧
  (∀ a : Int, (covered pt.allocatedVaIntervals a ∨ covered pt.nonAllocatedVaIntervals a) ↔
    covered pt.mappedVaIntervals a) ∧
  (∀ a : Int, ¬ (covered pt.allocatedVaIntervals a ∧ covered pt.nonAllocatedVaIntervals a))

/-- The symmetric PA invariant of the manager's four PA interval sets. -/
def PaInv (mgr : PageTableManager) : Prop :=
  (∀ a : Int, (covered mgr.unmappedPaIntervals a ∨ covered mgr.mappedPaIntervals a) ↔
    inPaRange a) ∧
  (∀ a : Int, ¬ (covered mgr.unmappedPaIntervals a ∧ covered mgr.mappedPaIntervals a)) ∧
  (∀ a : Int, (covered mgr.allocatedPaIntervals a ∨ covered mgr.nonAllocatedPaIntervals a) ↔
    covered mgr.mappedPaIntervals a) ∧
  (∀ a : Int, ¬ (covered mgr.allocatedPaIntervals a ∧ covered mgr.nonAllocatedPaIntervals a))

/-- The full state invariant: distinct page-table names, the PA invariant,
and the VA invariant of every registered page table. -/
def MgrInv (mgr : PageTableManager) : Prop :=
  (mgr.pageTables.map (fun pt => pt.pageTableName)).Nodup ∧
  PaInv mgr ∧ ∀ pt ∈ mgr.pageTables, VaInv pt

/-- Well-formedness of a trace: cross-core allocation is only invoked when a
page table exists (in the source it is a method of a registered page table). -/
def opsWf (mgr : PageTableManager) : List Op → Bool
  | [] => true
  | op :: rest =>
    (match op with
     | .allocCrossCore _ _ _ => !mgr.pageTables.isEmpty
     | _ => true) && opsWf (step mgr op).2 rest

/-- Moving a region `R` out of `unmapped` and into `mapped` and
`non_allocated` preserves the four-set invariant, provided `R` lies in the
range and misses `allocated`. -/
theorem quadInv_move {U M A N U2 M2 A2 N2 R Rng : Int → Prop}
    (hU : ∀ a, U2 a ↔ (U a ∧ ¬ R a)) (hM : ∀ a, M2 a ↔ (M a ∨ R a))
    (hA : ∀ a, A2 a ↔ A a) (hN : ∀ a, N2 a ↔ (N a ∨ R a))
    (hRr : ∀ a, R a → Rng a) (hRA : ∀ a, R a → ¬ A a)
    (hu : ∀ a, (U a ∨ M a) ↔ Rng a) (hd : ∀ a, ¬ (U a ∧ M a))
    (ha : ∀ a, (A a ∨ N a) ↔ M a) (hd2 : ∀ a, ¬ (A a ∧ N a)) :
    (∀ a, (U2 a ∨ M2 a) ↔ Rng a) ∧ (∀ a, ¬ (U2 a ∧ M2 a)) ∧
    (∀ a, (A2 a ∨ N2 a) ↔ M2 a) ∧ (∀ a, ¬ (A2 a ∧ N2 a)) := by
  refine ⟨fun a => ?_, fun a => ?_, fun a => ?_, fun a => ?_⟩
  · constructor
    · rintro (h | h)
      · exact (hu a).mp (Or.inl ((hU a).mp h).1)
      · rcases (hM a).mp h with h | h
        · exact (hu a).mp (Or.inr h)
        · exact hRr a h
    · intro h
      rcases (hu a).mpr h with h2 | h2
      · by_cases hr : R a
        · exact Or.inr ((hM a).mpr (Or.inr hr))
        · exact Or.inl ((hU a).mpr ⟨h2, hr⟩)
      · exact Or.inr ((hM a).mpr (Or.inl h2))
  · rintro ⟨h1, h2⟩
    obtain ⟨hu1, hr1⟩ := (hU a).mp h1
    rcases (hM a).mp h2 with h | h
    · exact hd a ⟨hu1, h⟩
    · exact hr1 h
  · constructor
    · rintro (h | h)
      · exact (hM a).mpr (Or.inl ((ha a).mp (Or.inl ((hA a).mp h))))
      · rcases (hN a).mp h with h | h
        · exact (hM a).mpr (Or.inl ((ha a).mp (Or.inr h)))
        · exact (hM a).mpr (Or.inr h)
    · intro h
      rcases (hM a).mp h with h | h
      · rcases (ha a).mpr h with h2 | h2
        · exact Or.inl ((hA a).mpr h2)
        · exact Or.inr ((hN a).mpr (Or.inl h2))
      · exact Or.inr ((hN a).mpr (Or.inr h))
  · rintro ⟨h1, h2⟩
    have hA1 := (hA a).mp h1
    rcases (hN a).mp h2 with h | h
    · exact hd2 a ⟨hA1, h⟩
    · exact hRA a h hA1

theorem covered_init_some (s t : Int) (md : Metadata) (a : Int) :
    covered (IntervalLib.init (some s) (some t) md) a ↔
      (s ≤ a ∧ a < s + t ∧ 0 < t) := by
  simp only [IntervalLib.init]
  rw [addRegion_covered]
  simp [covered, coveredL]

theorem covered_init_none (md : Metadata) (a : Int) :
    covered (IntervalLib.init none none md) a ↔ False := by
  simp [IntervalLib.init, covered, coveredL]

/-- A fresh page table satisfies the VA invariant. -/
theorem vaInv_init (n c : String) (ctx : ExecutionContext) :
    VaInv (PageTable.init n c ctx) := by
  have hsz : (0 : Int) < vaMemoryRangeSize := by norm_num [vaMemoryRangeSize]
  refine ⟨fun a => ?_, fun a => ?_, fun a => ?_, fun a => ?_⟩ <;>
    simp only [PageTable.init, covered_init_some, covered_init_none, inVaRange,
      or_false, false_or, and_false, false_and, not_false_iff, iff_false,
      not_and, iff_self, or_self] <;>
    omega

/-- The initial manager satisfies the invariant. -/
theorem mgrInv_init : MgrInv PageTableManager.init := by
  have hsz : (0 : Int) < paMemoryRangeSize := by norm_num [paMemoryRangeSize]
  refine ⟨by simp [PageTableManager.init], ⟨fun a => ?_, fun a => ?_, fun a => ?_,
    fun a => ?_⟩, by simp [PageTableManager.init]⟩ <;>
    simp only [PageTableManager.init, covered_init_some, covered_init_none,
      inPaRange, or_false, false_or, and_false, false_and, not_false_iff,
      iff_false, not_and, iff_self, or_self] <;>
    omega

/-- `create_page_table` preserves the invariant. -/
theorem createPT_inv {mgr : PageTableManager} (hinv : MgrInv mgr)
    (n c : String) (ctx : ExecutionContext) :
    MgrInv (mgr.createPageTable n c ctx).2 := by
  rw [PageTableManager.createPageTable]
  split
  · exact hinv
  · next hdup =>
    refine ⟨?_, hinv.2.1, ?_⟩
    · dsimp only
      rw [List.map_append, List.nodup_append]
      refine ⟨hinv.1, by simp, ?_⟩
      intro x hx hy
      rw [List.mem_map] at hx
      obtain ⟨pt0, hpt0, hx⟩ := hx
      simp only [List.map_cons, List.map_nil, List.mem_singleton] at hy
      apply hdup
      rw [List.any_eq_true]
      refine ⟨pt0, hpt0, ?_⟩
      rw [hx, hy]
      simp [PageTable.init]
    · intro pt hpt
      dsimp only at hpt
      rcases List.mem_append.mp hpt with h | h
      · exact hinv.2.2 pt h
      · rw [List.mem_singleton] at h
        subst h
        exact vaInv_init n c ctx


theorem updatePT_mem {mgr : PageTableManager} {n : String} {f : PageTable → PageTable}
    {pt2 : PageTable} (h : pt2 ∈ (mgr.updatePT n f).pageTables) :
    ∃ pt0 ∈ mgr.pageTables, pt2 = if pt0.pageTableName == n then f pt0 else pt0 := by
  rw [PageTableManager.updatePT] at h
  dsimp only at h
  rw [List.mem_map] at h
  obtain ⟨pt0, hpt0, heq⟩ := h
  exact ⟨pt0, hpt0, heq.symm⟩

theorem findPT_mem {mgr : PageTableManager} {n : String} {pt : PageTable}
    (h : mgr.findPT n = some pt) : pt ∈ mgr.pageTables ∧ pt.pageTableName = n := by
  rw [PageTableManager.findPT] at h
  have hmem := List.mem_of_find?_eq_some h
  have hp := List.find?_some h
  rw [beq_iff_eq] at hp
  exact ⟨hmem, hp⟩

theorem findPT_unique {mgr : PageTableManager} {n : String} {pt pt1 : PageTable}
    (hnd : (mgr.pageTables.map (fun p => p.pageTableName)).Nodup)
    (hfind : mgr.findPT n = some pt) (hmem : pt1 ∈ mgr.pageTables)
    (hname : pt1.pageTableName = n) : pt1 = pt := by
  obtain ⟨hmem2, hname2⟩ := findPT_mem hfind
  exact List.inj_on_of_nodup_map hnd hmem hmem2 (hname.trans hname2.symm)

theorem updatePT_names (mgr : PageTableManager) (n : String)
    (f : PageTable → PageTable)
    (hf : ∀ p, (f p).pageTableName = p.pageTableName) :
    (mgr.updatePT n f).pageTables.map (fun p => p.pageTableName) =
      mgr.pageTables.map (fun p => p.pageTableName) := by
  rw [PageTableManager.updatePT]
  dsimp only
  rw [List.map_map]
  refine List.map_congr_left fun pt _ => ?_
  dsimp only [Function.comp]
  split
  · exact hf pt
  · rfl

/-- Membership in the tables after a `map_va_to_pa` plus entry update: only
the named table changes, by the VA bookkeeping move plus `f3`. -/
theorem chain_tables_mem {mgrMid : PageTableManager} {n : String}
    {va pa sz : Int} {ty : PageType} {f3 : PageTable → PageTable} {pt2 : PageTable}
    (h : pt2 ∈ ((mgrMid.mapVaToPa n va pa sz ty).updatePT n f3).pageTables) :
    ∃ pt0 ∈ mgrMid.pageTables,
      pt2 = if pt0.pageTableName == n then
        f3 { pt0 with
          unmappedVaIntervals := pt0.unmappedVaIntervals.removeRegion va sz
          mappedVaIntervals := pt0.mappedVaIntervals.addRegion va sz none
          nonAllocatedVaIntervals := pt0.nonAllocatedVaIntervals.addRegion va sz
            (some [("page_type", .pty ty)]) }
      else pt0 := by
  obtain ⟨ptb, hptb, hb⟩ := updatePT_mem h
  have hptb2 : ptb ∈ (({ mgrMid with
      unmappedPaIntervals := mgrMid.unmappedPaIntervals.removeRegion pa sz
      mappedPaIntervals := mgrMid.mappedPaIntervals.addRegion pa sz none
      nonAllocatedPaIntervals := mgrMid.nonAllocatedPaIntervals.addRegion pa sz
        (some [("page_type", .pty ty), ("page_table", .str n)]) } :
        PageTableManager).updatePT n (fun pt => { pt with
      unmappedVaIntervals := pt.unmappedVaIntervals.removeRegion va sz
      mappedVaIntervals := pt.mappedVaIntervals.addRegion va sz none
      nonAllocatedVaIntervals := pt.nonAllocatedVaIntervals.addRegion va sz
        (some [("page_type", .pty ty)]) })).pageTables := hptb
  obtain ⟨pt0, hpt0, h0⟩ := updatePT_mem hptb2
  refine ⟨pt0, hpt0, ?_⟩
  by_cases hn : pt0.pageTableName == n
  · rw [if_pos hn] at h0
    subst h0
    dsimp only at hb
    rw [if_pos hn] at hb
    rw [if_pos hn]
    exact hb
  · rw [if_neg hn] at h0
    subst h0
    rw [if_neg hn] at hb
    rw [if_neg hn]
    exact hb

theorem chain_tables_names (mgrMid : PageTableManager) (n : String)
    (va pa sz : Int) (ty : PageType) (f3 : PageTable → PageTable)
    (hf3 : ∀ p, (f3 p).pageTableName = p.pageTableName) :
    ((mgrMid.mapVaToPa n va pa sz ty).updatePT n f3).pageTables.map
      (fun p => p.pageTableName) =
      mgrMid.pageTables.map (fun p => p.pageTableName) := by
  rw [updatePT_names _ _ _ hf3]
  exact updatePT_names _ _ _ (fun p => rfl)

/-- Re-establish the VA invariant of a table whose sets moved the block
`[st, st + sz)` from `unmapped` into `mapped` and `non_allocated`. -/
theorem vaInv_of_move {pt1 pt2 : PageTable} (hinv : VaInv pt1) {st sz : Int}
    (hcont : ∀ a, st ≤ a → a < st + sz → covered pt1.unmappedVaIntervals a)
    (hU : ∀ a, covered pt2.unmappedVaIntervals a ↔
      covered pt1.unmappedVaIntervals a ∧ ¬ (st ≤ a ∧ a < st + sz ∧ 0 < sz))
    (hM : ∀ a, covered pt2.mappedVaIntervals a ↔
      covered pt1.mappedVaIntervals a ∨ (st ≤ a ∧ a < st + sz ∧ 0 < sz))
    (hA : ∀ a, covered pt2.allocatedVaIntervals a ↔
      covered pt1.allocatedVaIntervals a)
    (hN : ∀ a, covered pt2.nonAllocatedVaIntervals a ↔
      covered pt1.nonAllocatedVaIntervals a ∨ (st ≤ a ∧ a < st + sz ∧ 0 < sz)) :
    VaInv pt2 := by
  obtain ⟨hu, hd, ha, hd2⟩ := hinv
  have hRr : ∀ a, (st ≤ a ∧ a < st + sz ∧ 0 < sz) → inVaRange a := fun a hr =>
    (hu a).mp (Or.inl (hcont a hr.1 hr.2.1))
  have hRA : ∀ a, (st ≤ a ∧ a < st + sz ∧ 0 < sz) →
      ¬ covered pt1.allocatedVaIntervals a := fun a hr hal =>
    hd a ⟨hcont a hr.1 hr.2.1, (ha a).mp (Or.inl hal)⟩
  exact quadInv_move hU hM hA hN hRr hRA hu hd ha hd2

/-- Re-establish the PA invariant of a manager whose PA sets moved the block
`[st, st + sz)` from `unmapped` into `mapped` and `non_allocated`. -/
theorem paInv_of_move {mgr1 mgr2 : PageTableManager} (hinv : PaInv mgr1)
    {st sz : Int}
    (hcont : ∀ a, st ≤ a → a < st + sz → covered mgr1.unmappedPaIntervals a)
    (hU : ∀ a, covered mgr2.unmappedPaIntervals a ↔
      covered mgr1.unmappedPaIntervals a ∧ ¬ (st ≤ a ∧ a < st + sz ∧ 0 < sz))
    (hM : ∀ a, covered mgr2.mappedPaIntervals a ↔
      covered mgr1.mappedPaIntervals a ∨ (st ≤ a ∧ a < st + sz ∧ 0 < sz))
    (hA : ∀ a, covered mgr2.allocatedPaIntervals a ↔
      covered mgr1.allocatedPaIntervals a)
    (hN : ∀ a, covered mgr2.nonAllocatedPaIntervals a ↔
      covered mgr1.nonAllocatedPaIntervals a ∨ (st ≤ a ∧ a < st + sz ∧ 0 < sz)) :
    PaInv mgr2 := by
  obtain ⟨hu, hd, ha, hd2⟩ := hinv
  have hRr : ∀ a, (st ≤ a ∧ a < st + sz ∧ 0 < sz) → inPaRange a := fun a hr =>
    (hu a).mp (Or.inl (hcont a hr.1 hr.2.1))
  have hRA : ∀ a, (st ≤ a ∧ a < st + sz ∧ 0 < sz) →
      ¬ covered mgr1.allocatedPaIntervals a := fun a hr hal =>
    hd a ⟨hcont a hr.1 hr.2.1, (ha a).mp (Or.inl hal)⟩
  exact quadInv_move hU hM hA hN hRr hRA hu hd ha hd2


theorem covered_rr_rr (L : IntervalLib) (st sz : Int) (a : Int) :
    covered ((L.removeRegion st sz).removeRegion st sz) a ↔
      covered L a ∧ ¬ (st ≤ a ∧ a < st + sz ∧ 0 < sz) := by
  rw [removeRegion_covered, removeRegion_covered]
  tauto

theorem defaultedAb_pos (sz : PageSize) (abA : Option Int)
    (h : ¬ ((match abA with
      | none => false
      | some ab =>
        (decide (sz = PageSize.SIZE_4K) && decide (ab < 12)) ||
        (decide (sz = PageSize.SIZE_2M) && decide (ab < 21)) ||
        (decide (sz = PageSize.SIZE_1G) && decide (ab < 30))) = true)) :
    0 < (match abA with
      | none => defaultAlignmentBits sz
      | some ab => ab) := by
  rcases abA with _ | ab
  · cases sz <;> norm_num [defaultAlignmentBits]
  · simp only [Bool.or_eq_true, Bool.and_eq_true, decide_eq_true_eq, not_or,
      not_and] at h
    cases sz <;> simp_all <;> omega

/-- A successful `allocate_page` preserves the manager invariant. -/
theorem allocatePage_inv {mgr : PageTableManager} (hinv : MgrInv mgr)
    (ptName : String) (sizeArg : Option PageSize) (abArg : Option Int)
    (ptyArg : Option PageType) (permsArg : Option Int)
    (cachArg sharArg : Option String) (custArg : Option Metadata)
    (seqCount : Nat) (vaEqPa : Bool) (rs r1 r2 r3 r4 : Nat)
    {res : List Page} {mgr2 : PageTableManager}
    (h : mgr.allocatePage ptName sizeArg abArg ptyArg permsArg cachArg sharArg
      custArg seqCount vaEqPa rs r1 r2 r3 r4 = (.ok res, mgr2)) :
    MgrInv mgr2 := by
  obtain ⟨hnd, hpa0, htab0⟩ := hinv
  rw [PageTableManager.allocatePage.eq_def] at h
  split at h
  · exact absurd (congrArg Prod.fst h) (by simp)
  · next pt hfind =>
    have hptmem := (findPT_mem hfind).1
    generalize hSZ : (match sizeArg with
      | none => if rs % 2 = 0 then PageSize.SIZE_4K else PageSize.SIZE_2M
      | some s => s) = sizeV at h
    dsimp only at h
    generalize hFS : fullSizeOf sizeV.bytes seqCount = FS at h
    generalize hABv : (match abArg with
      | none => defaultAlignmentBits sizeV
      | some ab => ab) = AB at h
    generalize hABI : (match abArg with
      | none => false
      | some ab =>
        (decide (sizeV = PageSize.SIZE_4K) && decide (ab < 12)) ||
        (decide (sizeV = PageSize.SIZE_2M) && decide (ab < 21)) ||
        (decide (sizeV = PageSize.SIZE_1G) && decide (ab < 30))) = abI at h
    split at h
    · exact absurd (congrArg Prod.fst h) (by simp)
    · split at h
      · exact absurd (congrArg Prod.fst h) (by simp)
      · next habI =>
        have habpos : 0 < AB := by
          rw [← hABI] at habI
          exact hABv ▸ defaultedAb_pos sizeV abArg habI
        split at h
        · exact absurd (congrArg Prod.fst h) (by simp)
        · next ptv =>
          split at h
          · -- identity path
            split at h
            · exact absurd (congrArg Prod.fst h) (by simp)
            · next vaStart paStart szR hva =>
              injection h with h1 h2
              subst h2
              obtain ⟨hpaeq, hszeq, -, ⟨vi, hvi, hvl, hvh⟩, pj, hpj, hpl, hph⟩ :=
                findVaEqPa_spec habpos hva
              have hpaeq2 := hpaeq.symm
              subst hpaeq2
              have hszeq2 := hszeq.symm
              subst hszeq2
              have hcontVA : ∀ a, vaStart ≤ a → a < vaStart + FS →
                  covered pt.unmappedVaIntervals a := by
                intro a ha1 ha2
                refine ⟨vi, hvi, ?_⟩
                show vi.start ≤ a ∧ a < vi.iend
                unfold Interval.iend
                omega
              have hcontPA : ∀ a, vaStart ≤ a → a < vaStart + FS →
                  covered mgr.unmappedPaIntervals a := by
                intro a ha1 ha2
                refine ⟨pj, hpj, ?_⟩
                show pj.start ≤ a ∧ a < pj.iend
                unfold Interval.iend
                omega
              refine ⟨?_, ?_, ?_⟩
              · rw [chain_tables_names]
                · exact (updatePT_names mgr ptName (fun p =>
                    { p with unmappedVaIntervals :=
                        p.unmappedVaIntervals.removeRegion vaStart FS })
                    (fun p => rfl)) ▸ hnd
                · intro p
                  rfl
              · refine paInv_of_move hpa0 hcontPA ?_ ?_ ?_ ?_ <;> intro a
                · show covered ((mgr.unmappedPaIntervals.removeRegion vaStart
                      FS).removeRegion vaStart FS) a ↔ _
                  exact covered_rr_rr _ _ _ a
                · show covered (mgr.mappedPaIntervals.addRegion vaStart FS none)
                      a ↔ _
                  exact addRegion_covered _ _ _ _ a
                · exact Iff.rfl
                · show covered (mgr.nonAllocatedPaIntervals.addRegion vaStart FS
                      (some [("page_type", .pty ptv), ("page_table",
                        .str ptName)])) a ↔ _
                  exact addRegion_covered _ _ _ _ a
              · intro pt2 hpt2
                obtain ⟨pt0, hpt0, h0⟩ := chain_tables_mem hpt2
                obtain ⟨pt1, hpt1, h1m⟩ := updatePT_mem (show pt0 ∈
                  (mgr.updatePT ptName (fun p =>
                    { p with unmappedVaIntervals :=
                        p.unmappedVaIntervals.removeRegion vaStart FS })).pageTables
                  from hpt0)
                by_cases hn : pt1.pageTableName == ptName
                · have hpt1eq : pt = pt1 :=
                    (findPT_unique hnd hfind hpt1 (by simpa using hn)).symm
                  subst hpt1eq
                  rw [if_pos hn] at h1m
                  subst h1m
                  dsimp only at h0
                  rw [if_pos hn] at h0
                  subst h0
                  refine vaInv_of_move (htab0 pt hptmem) hcontVA ?_ ?_ ?_ ?_ <;>
                    intro a
                  · show covered ((pt.unmappedVaIntervals.removeRegion vaStart
                        FS).removeRegion vaStart FS) a ↔ _
                    exact covered_rr_rr _ _ _ a
                  · show covered (pt.mappedVaIntervals.addRegion vaStart FS none)
                        a ↔ _
                    exact addRegion_covered _ _ _ _ a
                  · exact Iff.rfl
                  · show covered (pt.nonAllocatedVaIntervals.addRegion vaStart FS
                        (some [("page_type", .pty ptv)])) a ↔ _
                    exact addRegion_covered _ _ _ _ a
                · rw [if_neg hn] at h1m
                  subst h1m
                  rw [if_neg hn] at h0
                  subst h0
                  exact htab0 _ hpt1
          · -- normal path
            split at h
            · exact absurd (congrArg Prod.fst h) (by simp)
            · next vaStart vaSize unmappedVa2 hfr =>
              split at h
              · exact absurd (congrArg Prod.fst h) (by simp)
              · next paStart paSize mgrB hpaI =>
                injection h with h1 h2
                subst h2
                obtain ⟨hvsz, hrem, hfreg⟩ := findAndRemove_spec hfr
                have hvsz2 := hvsz.symm
                subst hvsz2
                obtain ⟨-, hFSpos, -, i, hi, -, hst1, hst2⟩ := findRegion_spec hfreg
                obtain ⟨hmB, -, -, -, j, hj, hjs1, hjs2⟩ := allocatePaInterval_ok hpaI
                subst hmB
                subst hrem
                have hcontVA : ∀ a, vaStart ≤ a → a < vaStart + FS →
                    covered pt.unmappedVaIntervals a := by
                  intro a ha1 ha2
                  refine ⟨i, hi, ?_⟩
                  show i.start ≤ a ∧ a < i.iend
                  unfold Interval.iend at *
                  omega
                have hcontPA : ∀ a, paStart ≤ a → a < paStart + FS →
                    covered mgr.unmappedPaIntervals a := by
                  intro a ha1 ha2
                  refine ⟨j, (show j ∈ mgr.unmappedPaIntervals.intervals from hj), ?_⟩
                  show j.start ≤ a ∧ a < j.iend
                  unfold Interval.iend at *
                  omega
                refine ⟨?_, ?_, ?_⟩
                · rw [chain_tables_names]
                  · exact (updatePT_names mgr ptName (fun p =>
                      { p with unmappedVaIntervals :=
                          pt.unmappedVaIntervals.removeRegion vaStart FS })
                      (fun p => rfl)) ▸ hnd
                  · intro p
                    rfl
                · refine paInv_of_move hpa0 hcontPA ?_ ?_ ?_ ?_ <;> intro a
                  · show covered ((mgr.unmappedPaIntervals.removeRegion paStart
                        FS).removeRegion paStart FS) a ↔ _
                    exact covered_rr_rr _ _ _ a
                  · show covered (mgr.mappedPaIntervals.addRegion paStart FS none)
                        a ↔ _
                    exact addRegion_covered _ _ _ _ a
                  · exact Iff.rfl
                  · show covered (mgr.nonAllocatedPaIntervals.addRegion paStart FS
                        (some [("page_type", .pty ptv), ("page_table",
                          .str ptName)])) a ↔ _
                    exact addRegion_covered _ _ _ _ a
                · intro pt2 hpt2
                  obtain ⟨pt0, hpt0, h0⟩ := chain_tables_mem hpt2
                  obtain ⟨pt1, hpt1, h1m⟩ := updatePT_mem (show pt0 ∈
                    (mgr.updatePT ptName (fun p =>
                      { p with unmappedVaIntervals :=
                          pt.unmappedVaIntervals.removeRegion vaStart FS })).pageTables
                    from hpt0)
                  by_cases hn : pt1.pageTableName == ptName
                  · have hpt1eq : pt = pt1 :=
                      (findPT_unique hnd hfind hpt1 (by simpa using hn)).symm
                    subst hpt1eq
                    rw [if_pos hn] at h1m
                    subst h1m
                    dsimp only at h0
                    rw [if_pos hn] at h0
                    subst h0
                    refine vaInv_of_move (htab0 pt hptmem) hcontVA ?_ ?_ ?_ ?_ <;>
                      intro a
                    · show covered ((pt.unmappedVaIntervals.removeRegion vaStart
                          FS).removeRegion vaStart FS) a ↔ _
                      exact covered_rr_rr _ _ _ a
                    · show covered (pt.mappedVaIntervals.addRegion vaStart FS
                          none) a ↔ _
                      exact addRegion_covered _ _ _ _ a
                    · exact Iff.rfl
                    · show covered (pt.nonAllocatedVaIntervals.addRegion vaStart
                          FS (some [("page_type", .pty ptv)])) a ↔ _
                      exact addRegion_covered _ _ _ _ a
                  · rw [if_neg hn] at h1m
                    subst h1m
                    rw [if_neg hn] at h0
                    subst h0
                    exact htab0 _ hpt1

/-- The loop state of `allocate_cross_core_page`: the chosen PA block `C` has
left `unmapped_pa` but may not yet be recorded in `mapped_pa`; everything else
of the manager invariant holds. -/
def CrossState (paStart sz : Int) (mgr : PageTableManager) : Prop :=
  (mgr.pageTables.map (fun p => p.pageTableName)).Nodup ∧
  (∀ pt ∈ mgr.pageTables, VaInv pt) ∧
  (∀ a, (covered mgr.unmappedPaIntervals a ∨ covered mgr.mappedPaIntervals a ∨
      (paStart ≤ a ∧ a < paStart + sz ∧ 0 < sz)) ↔ inPaRange a) ∧
  (∀ a, ¬ (covered mgr.unmappedPaIntervals a ∧ covered mgr.mappedPaIntervals a)) ∧
  (∀ a, (paStart ≤ a ∧ a < paStart + sz ∧ 0 < sz) →
    ¬ covered mgr.unmappedPaIntervals a) ∧
  (∀ a, (covered mgr.allocatedPaIntervals a ∨ covered mgr.nonAllocatedPaIntervals a) ↔
    covered mgr.mappedPaIntervals a) ∧
  (∀ a, ¬ (covered mgr.allocatedPaIntervals a ∧ covered mgr.nonAllocatedPaIntervals a)) ∧
  (∀ a, (paStart ≤ a ∧ a < paStart + sz ∧ 0 < sz) →
    ¬ covered mgr.allocatedPaIntervals a)

theorem crossQuad_enter {U M A N : Int → Prop} (U1 : Int → Prop) {C Rng : Int → Prop}
    (hU1 : ∀ a, U1 a ↔ (U a ∧ ¬ C a))
    (hCU : ∀ a, C a → U a)
    (h1 : ∀ a, (U a ∨ M a) ↔ Rng a) (h2 : ∀ a, ¬ (U a ∧ M a))
    (h4 : ∀ a, (A a ∨ N a) ↔ M a) (h5 : ∀ a, ¬ (A a ∧ N a)) :
    (∀ a, (U1 a ∨ M a ∨ C a) ↔ Rng a) ∧ (∀ a, ¬ (U1 a ∧ M a)) ∧
    (∀ a, C a → ¬ U1 a) ∧ (∀ a, C a → ¬ A a) := by
  refine ⟨fun a => ?_, fun a => ?_, fun a => ?_, fun a => ?_⟩
  · constructor
    · rintro (h | h | h)
      · exact (h1 a).mp (Or.inl ((hU1 a).mp h).1)
      · exact (h1 a).mp (Or.inr h)
      · exact (h1 a).mp (Or.inl (hCU a h))
    · intro h
      rcases (h1 a).mpr h with h | h
      · by_cases hc : C a
        · exact Or.inr (Or.inr hc)
        · exact Or.inl ((hU1 a).mpr ⟨h, hc⟩)
      · exact Or.inr (Or.inl h)
  · rintro ⟨hx, hy⟩
    exact h2 a ⟨((hU1 a).mp hx).1, hy⟩
  · intro hc hx
    exact ((hU1 a).mp hx).2 hc
  · intro hc hx
    exact h2 a ⟨hCU a hc, (h4 a).mp (Or.inl hx)⟩

theorem crossQuad_step {U M A N : Int → Prop} (U2 M2 N2 : Int → Prop) {C Rng : Int → Prop}
    (hU : ∀ a, U2 a ↔ (U a ∧ ¬ C a)) (hM : ∀ a, M2 a ↔ (M a ∨ C a))
    (hN : ∀ a, N2 a ↔ (N a ∨ C a))
    (h1 : ∀ a, (U a ∨ M a ∨ C a) ↔ Rng a)
    (h2 : ∀ a, ¬ (U a ∧ M a))
    (h3 : ∀ a, C a → ¬ U a)
    (h4 : ∀ a, (A a ∨ N a) ↔ M a)
    (h5 : ∀ a, ¬ (A a ∧ N a))
    (h6 : ∀ a, C a → ¬ A a) :
    (∀ a, (U2 a ∨ M2 a ∨ C a) ↔ Rng a) ∧ (∀ a, ¬ (U2 a ∧ M2 a)) ∧
    (∀ a, C a → ¬ U2 a) ∧ (∀ a, (A a ∨ N2 a) ↔ M2 a) ∧
    (∀ a, ¬ (A a ∧ N2 a)) ∧ (∀ a, C a → ¬ A a) := by
  refine ⟨fun a => ?_, fun a => ?_, fun a => ?_, fun a => ?_, fun a => ?_, h6⟩
  · constructor
    · rintro (h | h | h)
      · exact (h1 a).mp (Or.inl ((hU a).mp h).1)
      · rcases (hM a).mp h with h | h
        · exact (h1 a).mp (Or.inr (Or.inl h))
        · exact (h1 a).mp (Or.inr (Or.inr h))
      · exact (h1 a).mp (Or.inr (Or.inr h))
    · intro h
      rcases (h1 a).mpr h with h | h | h
      · by_cases hc : C a
        · exact Or.inr (Or.inr hc)
        · exact Or.inl ((hU a).mpr ⟨h, hc⟩)
      · exact Or.inr (Or.inl ((hM a).mpr (Or.inl h)))
      · exact Or.inr (Or.inl ((hM a).mpr (Or.inr h)))
  · rintro ⟨hx, hy⟩
    obtain ⟨hu, hnc⟩ := (hU a).mp hx
    rcases (hM a).mp hy with h | h
    · exact h2 a ⟨hu, h⟩
    · exact hnc h
  · intro hc hx
    exact ((hU a).mp hx).2 hc
  · constructor
    · rintro (h | h)
      · exact (hM a).mpr (Or.inl ((h4 a).mp (Or.inl h)))
      · rcases (hN a).mp h with h | h
        · exact (hM a).mpr (Or.inl ((h4 a).mp (Or.inr h)))
        · exact (hM a).mpr (Or.inr h)
    · intro h
      rcases (hM a).mp h with h | h
      · rcases (h4 a).mpr h with h | h
        · exact Or.inl h
        · exact Or.inr ((hN a).mpr (Or.inl h))
      · exact Or.inr ((hN a).mpr (Or.inr h))
  · rintro ⟨hx, hy⟩
    rcases (hN a).mp hy with h | h
    · exact h5 a ⟨hx, h⟩
    · exact h6 a h hx

/-- The loop of `allocate_cross_core_page` preserves the loop state, never
shrinks `mapped_pa`, and records the chosen PA block in `mapped_pa` once at
least one table is processed. -/
theorem crossCoreLoop_inv {mgr2 : PageTableManager} {paStart sz : Int}
    {rVa : Nat → Nat × Nat} :
    ∀ (names : List String) (mgr : PageTableManager) (idx : Nat),
      CrossState paStart sz mgr →
      PageTableManager.crossCoreLoop mgr paStart sz names idx rVa = (.ok (), mgr2) →
      CrossState paStart sz mgr2 ∧
        (∀ a, covered mgr.mappedPaIntervals a → covered mgr2.mappedPaIntervals a) ∧
        (names ≠ [] → ∀ a, (paStart ≤ a ∧ a < paStart + sz ∧ 0 < sz) →
          covered mgr2.mappedPaIntervals a) := by
  intro names
  induction names with
  | nil =>
    intro mgr idx hcs h
    simp only [PageTableManager.crossCoreLoop] at h
    injection h with h1 h2
    subst h2
    exact ⟨hcs, fun a ha => ha, fun hne => absurd rfl hne⟩
  | cons n rest ih =>
    intro mgr idx hcs h
    obtain ⟨hnd, htab, hq1, hq2, hq3, hq4, hq5, hq6⟩ := hcs
    simp only [PageTableManager.crossCoreLoop] at h
    split at h
    · exact absurd (congrArg Prod.fst h) (by simp)
    · next pt hfind =>
      split at h
      · exact absurd (congrArg Prod.fst h) (by simp)
      · next vaStart vaSize unmappedVa2 hfr =>
        have hptmem := (findPT_mem hfind).1
        obtain ⟨hvsz, hrem, hfreg⟩ := findAndRemove_spec hfr
        have hvsz2 := hvsz.symm
        subst hvsz2
        obtain ⟨-, hszpos, -, i, hi, -, hst1, hst2⟩ := findRegion_spec hfreg
        subst hrem
        have hcontVA : ∀ a, vaStart ≤ a → a < vaStart + sz →
            covered pt.unmappedVaIntervals a := by
          intro a ha1 ha2
          refine ⟨i, hi, ?_⟩
          show i.start ≤ a ∧ a < i.iend
          unfold Interval.iend at *
          omega
        obtain ⟨hs1, hs2, hs3, hs4, hs5, hs6⟩ :=
          crossQuad_step (covered ((mgr.updatePT n (fun p =>
              { p with unmappedVaIntervals :=
                  pt.unmappedVaIntervals.removeRegion vaStart sz })).mapVaToPa n
              vaStart paStart sz .TYPE_DATA).unmappedPaIntervals)
            (covered (mgr.mappedPaIntervals.addRegion paStart sz none))
            (covered (mgr.nonAllocatedPaIntervals.addRegion paStart sz
              (some [("page_type", .pty .TYPE_DATA), ("page_table", .str n)])))
            (fun a => removeRegion_covered _ _ _ _)
            (fun a => addRegion_covered _ _ _ _ a)
            (fun a => addRegion_covered _ _ _ _ a)
            hq1 hq2 hq3 hq4 hq5 hq6
        have hcsC : CrossState paStart sz (((mgr.updatePT n (fun p =>
            { p with unmappedVaIntervals :=
                pt.unmappedVaIntervals.removeRegion vaStart sz })).mapVaToPa n
            vaStart paStart sz .TYPE_DATA).updatePT n (fun p =>
            { p with pageTableEntries := p.pageTableEntries ++
              [{ va := vaStart, pa := paStart, size := sz,
                 pageType := .TYPE_DATA, permissions := 7, cacheable := cacheWb,
                 shareable := shareNone, executionContext := pt.executionContext,
                 customAttributes := [], isCrossCore := true }] })) := by
          refine ⟨?_, ?_, hs1, hs2, hs3, hs4, hs5, hs6⟩
          · rw [chain_tables_names]
            · exact (updatePT_names mgr n (fun p =>
                { p with unmappedVaIntervals :=
                    pt.unmappedVaIntervals.removeRegion vaStart sz })
                (fun p => rfl)) ▸ hnd
            · intro p
              rfl
          · intro pt2 hpt2
            obtain ⟨pt0, hpt0, h0⟩ := chain_tables_mem hpt2
            obtain ⟨pt1, hpt1, h1m⟩ := updatePT_mem (show pt0 ∈
              (mgr.updatePT n (fun p =>
                { p with unmappedVaIntervals :=
                    pt.unmappedVaIntervals.removeRegion vaStart sz })).pageTables
              from hpt0)
            by_cases hn : pt1.pageTableName == n
            · have hpt1eq : pt = pt1 :=
                (findPT_unique hnd hfind hpt1 (by simpa using hn)).symm
              subst hpt1eq
              rw [if_pos hn] at h1m
              subst h1m
              dsimp only at h0
              rw [if_pos hn] at h0
              subst h0
              refine vaInv_of_move (htab pt hptmem) hcontVA ?_ ?_ ?_ ?_ <;>
                intro a
              · show covered ((pt.unmappedVaIntervals.removeRegion vaStart
                    sz).removeRegion vaStart sz) a ↔ _
                exact covered_rr_rr _ _ _ a
              · show covered (pt.mappedVaIntervals.addRegion vaStart sz none)
                    a ↔ _
                exact addRegion_covered _ _ _ _ a
              · exact Iff.rfl
              · show covered (pt.nonAllocatedVaIntervals.addRegion vaStart sz
                    (some [("page_type", .pty .TYPE_DATA)])) a ↔ _
                exact addRegion_covered _ _ _ _ a
            · rw [if_neg hn] at h1m
              subst h1m
              rw [if_neg hn] at h0
              subst h0
              exact htab _ hpt1
        obtain ⟨hcs2, hmono, hin⟩ := ih _ _ hcsC h
        refine ⟨hcs2, ?_, ?_⟩
        · intro a ha
          refine hmono a ?_
          show covered (mgr.mappedPaIntervals.addRegion paStart sz none) a
          rw [addRegion_covered]
          exact Or.inl ha
        · rintro - a hc
          refine hmono a ?_
          show covered (mgr.mappedPaIntervals.addRegion paStart sz none) a
          rw [addRegion_covered]
          exact Or.inr hc

/-- A successful `allocate_cross_core_page` on a manager with at least one
registered table preserves the manager invariant. -/
theorem crossCore_inv {mgr mgr2 : PageTableManager} (hinv : MgrInv mgr)
    (hne : mgr.pageTables ≠ []) (rPa1 rPa2 : Nat) (rVa : Nat → Nat × Nat)
    (h : mgr.allocateCrossCorePage rPa1 rPa2 rVa = (.ok (), mgr2)) :
    MgrInv mgr2 := by
  obtain ⟨hnd, ⟨hp1, hp2, hp3, hp4⟩, htab⟩ := hinv
  rw [PageTableManager.allocateCrossCorePage] at h
  split at h
  · exact absurd (congrArg Prod.fst h) (by simp)
  · next paStart paSize mgr1 hpa =>
    obtain ⟨hm1, -, -, -, j, hj, hj1, hj2⟩ := allocatePaInterval_ok hpa
    subst hm1
    have hCU : ∀ a, (paStart ≤ a ∧ a < paStart + PageSize.SIZE_2M.bytes ∧
        (0:Int) < PageSize.SIZE_2M.bytes) → covered mgr.unmappedPaIntervals a := by
      intro a hc
      refine ⟨j, hj, ?_⟩
      show j.start ≤ a ∧ a < j.iend
      unfold Interval.iend at *
      omega
    obtain ⟨he1, he2, he3, he4⟩ := crossQuad_enter
      (covered (mgr.unmappedPaIntervals.removeRegion paStart
        PageSize.SIZE_2M.bytes))
      (fun a => removeRegion_covered _ _ _ _) hCU hp1 hp2 hp3 hp4
    have hcs1 : CrossState paStart PageSize.SIZE_2M.bytes
        { mgr with unmappedPaIntervals :=
            mgr.unmappedPaIntervals.removeRegion paStart PageSize.SIZE_2M.bytes } :=
      ⟨hnd, htab, he1, he2, he3, hp3, hp4, he4⟩
    obtain ⟨⟨hnd2, htab2, hg1, hg2, hg3, hg4, hg5, hg6⟩, -, hin⟩ :=
      crossCoreLoop_inv _ _ _ hcs1 h
    have hnames : mgr.pageTables.map (fun pt => pt.pageTableName) ≠ [] := by
      intro hc
      exact hne (List.map_eq_nil_iff.mp hc)
    have hCin := hin hnames
    refine ⟨hnd2, ⟨?_, hg2, hg4, hg5⟩, htab2⟩
    intro a
    constructor
    · rintro (h2 | h2)
      · exact (hg1 a).mp (Or.inl h2)
      · exact (hg1 a).mp (Or.inr (Or.inl h2))
    · intro h2
      rcases (hg1 a).mpr h2 with h3 | h3 | h3
      · exact Or.inl h3
      · exact Or.inr h3
      · exact Or.inr (hCin a h3)


theorem opsWf_cons (mgr : PageTableManager) (op : Op) (rest : List Op) :
    opsWf mgr (op :: rest) = ((match op with
      | .allocCrossCore _ _ _ => !mgr.pageTables.isEmpty
      | _ => true) && opsWf (step mgr op).2 rest) := by
  cases op <;> rfl

/-- Every failure-free, well-formed run preserves the manager invariant. -/
theorem runOps_inv : ∀ (ops : List Op) (mgr : PageTableManager),
    MgrInv mgr → opsOk mgr ops = true → opsWf mgr ops = true →
    MgrInv (runOps mgr ops)
  | [], _, hinv, _, _ => hinv
  | op :: rest, mgr, hinv, hok, hwf => by
    rw [runOps]
    rw [opsOk] at hok
    rw [opsWf_cons, Bool.and_eq_true] at hwf
    split at hok
    · next u m hstep =>
      have hinv2 : MgrInv m := by
        cases op with
        | createPT n c ctx =>
          simp only [step] at hstep
          split at hstep
          · next pt2 m2 hcp =>
            injection hstep with h1 h2
            subst h2
            have h3 := createPT_inv hinv n c ctx
            rw [hcp] at h3
            exact h3
          · next e m2 hcp =>
            exact absurd (congrArg Prod.fst hstep) (by simp)
        | allocPage n s ab pty pe ca sh cu sc ve rs r1 r2 r3 r4 =>
          simp only [step] at hstep
          split at hstep
          · next pages m2 hap =>
            injection hstep with h1 h2
            subst h2
            exact allocatePage_inv ⟨hinv.1, hinv.2.1, hinv.2.2⟩ n s ab pty pe ca
              sh cu sc ve rs r1 r2 r3 r4 hap
          · next e m2 hap =>
            exact absurd (congrArg Prod.fst hstep) (by simp)
        | allocCrossCore a b f =>
          simp only [step] at hstep
          have hne : mgr.pageTables ≠ [] := by
            have h1 : (!mgr.pageTables.isEmpty) = true := hwf.1
            intro hc
            rw [hc] at h1
            simp at h1
          cases u
          exact crossCore_inv hinv hne a b f hstep
        | allocSegment n sz pty ab ve ps r1 r2 =>
          simp only [step, PageTableManager.allocateSegment] at hstep
          exact absurd (congrArg Prod.fst hstep) (by simp)
      have hwf2 : opsWf m rest = true := by
        have h1 := hwf.2
        rw [hstep] at h1
        exact h1
      rw [hstep]
      exact runOps_inv rest m hinv2 hok hwf2
    · exact absurd hok (by simp)

/-- C1 (amended): starting from the initial manager, after every prefix of any
run of public mutating operations in which no operation raises (and cross-core
allocation is invoked, as in the source, through some registered page table),
every page table satisfies the VA four-set invariant — `unmapped_va ∪
mapped_va` is exactly the initial VA range `[0x80200000, 0x80200000 +
0x200000000)` with the two disjoint, and `allocated_va ∪ non_allocated_va` is
exactly `mapped_va` with the two disjoint — and the manager's four PA interval
sets satisfy the symmetric property; as the counterexample shows, the claim as
stated is false for runs containing a raising operation: a failed
`allocate_page` leaves `unmapped_va ∪ mapped_va` a strict subset of the
range. -/
theorem c1_invariant_failure_free (ops : List Op)
    (hok : opsOk PageTableManager.init ops = true)
    (hwf : opsWf PageTableManager.init ops = true) :
    MgrInv (runOps PageTableManager.init ops) :=
  runOps_inv ops PageTableManager.init mgrInv_init hok hwf

/-- A short failure-free run: two tables, a 4 KiB CODE page on `A`, then a
cross-core page. -/
def c1Ops : List Op :=
  [.createPT "A" "core_0" .EL3, .createPT "B" "core_1" .EL3,
   .allocPage "A" (some .SIZE_4K) none (some .TYPE_CODE) none none none none
     1 false 0 0 0 0 0,
   .allocCrossCore 0 0 (fun _ => (0, 0))]

theorem c1_invariant_failure_free_witness :
    MgrInv (runOps PageTableManager.init c1Ops) :=
  c1_invariant_failure_free c1Ops (by rfl) (by rfl)

/-- Manager with two registered page tables `A` and `B`. -/
def c1Mgr0 : PageTableManager :=
  ((PageTableManager.init.createPageTable "A" "core_0" .EL3).2.createPageTable
    "B" "core_1" .EL3).2

/-- The manager after `allocate_page("A", 2 MiB, CODE, sequential_page_count
= 4096)` consumed the entire 8 GiB unmapped PA pool. -/
def c1MgrDrained : PageTableManager :=
  (c1Mgr0.allocatePage "A" (some .SIZE_2M) none (some .TYPE_CODE) none none none
    none 4096 false 0 0 0 0 0).2

/-- The failing allocation on `B`: its VA step succeeds, its PA step raises. -/
def c1Res : Except PyErr (List Page) × PageTableManager :=
  c1MgrDrained.allocatePage "B" (some .SIZE_4K) none (some .TYPE_CODE) none none
    none none 1 false 0 0 0 0 0

/-- Page table `B` after the failing operation. -/
def c1PtB : PageTable :=
  ((c1Res.2).findPT "B").getD (PageTable.init "B" "core_1" .EL3)

/-- C1 (counterexample to the claim as stated): after the public operation
sequence create `A`, create `B`, drain the PA pool through `A`, then
`allocate_page("B", 4 KiB, CODE)` — which raises — the address `0x80200000`
lies in the initial VA range but is covered by neither `B`'s `unmapped_va`
nor `B`'s `mapped_va`: their union is no longer the initial VA range. -/
theorem c1_counterexample :
    c1Res.1 = .error .couldNotAllocatePage ∧
    inVaRange 0x80200000 ∧
    ¬ covered c1PtB.unmappedVaIntervals 0x80200000 ∧
    ¬ covered c1PtB.mappedVaIntervals 0x80200000 :=
  ⟨by rfl, by decide, by decide, by decide⟩


end Memlayout
